import Mathlib

/-!
Verification of the Atlan data extractor (`main.py`).

The development shallowly embeds the core of the extractor:

* the payload templating of `get_databases` (`json.dumps` / `str.replace` /
  `json.loads`), over a JSON value type with a faithful serializer and parser;
* the entity mappers inside `get_connections` and `get_databases`;
* the left-join row construction of `create_combined_csv`;
* the per-connection database-fetch loop of `main`.

Python strings are modelled as `List Char` where character-level operations
matter, and as `String` for record fields.  Machine-level concerns (file IO,
logging, HTTP transport) are modelled at their interfaces: the transport is an
oracle returning `Option` (`None` models every failure `make_api_request`
converts to `None`), and an uncaught Python exception is an `Except.error`.
-/

namespace Atlan

/-! ## Python `str.replace` and `str.split`

`get_databases` substitutes the connection qualified name into the payload
template with `payload_json_str.replace("PLACEHOLDER_TO_BE_REPLACED", ...)`.
CPython's `str.replace` scans left to right and replaces every non-overlapping
occurrence of a non-empty pattern; `str.split` with the same pattern cuts at
exactly those occurrences, and `rep.join(s.split(ph)) == s.replace(ph, rep)`.
The functions below implement that scan with explicit fuel so that they are
structurally recursive and evaluate by `rfl`; all call sites use a non-empty
pattern. -/

/-- One left-to-right replacement scan; `fuel` bounds the number of steps and
is always instantiated with the length of the scanned string. -/
def replaceAux (ph rep : List Char) : Nat → List Char → List Char
  | 0, s => s
  | _ + 1, [] => []
  | fuel + 1, c :: cs =>
    if ph.isPrefixOf (c :: cs) then rep ++ replaceAux ph rep fuel ((c :: cs).drop ph.length)
    else c :: replaceAux ph rep fuel cs

/-- Python `s.replace(ph, rep)` for a non-empty pattern `ph` (every call site
in `main.py` passes the 26-character placeholder token). -/
def pyReplace (s ph rep : List Char) : List Char :=
  if ph.isEmpty then s else replaceAux ph rep s.length s

/-- Prepend a character to the first chunk of a chunk list. -/
def consHead (c : Char) : List (List Char) → List (List Char)
  | [] => [[c]]
  | g :: gs => (c :: g) :: gs

/-- One left-to-right splitting scan, cutting at each occurrence of `ph`. -/
def splitAux (ph : List Char) : Nat → List Char → List (List Char)
  | 0, s => [s]
  | _ + 1, [] => [[]]
  | fuel + 1, c :: cs =>
    if ph.isPrefixOf (c :: cs) then [] :: splitAux ph fuel ((c :: cs).drop ph.length)
    else consHead c (splitAux ph fuel cs)

/-- Python `s.split(ph)` for a non-empty separator `ph`. -/
def pySplit (s ph : List Char) : List (List Char) :=
  if ph.isEmpty then [s] else splitAux ph s.length s

/-- Python `sep.join(parts)`. -/
def joinWith (sep : List Char) : List (List Char) → List Char
  | [] => []
  | [g] => g
  | g :: g' :: gs => g ++ sep ++ joinWith sep (g' :: gs)

/-- Whether `ph` occurs as a contiguous substring of `s`
(Python `ph in s`). -/
def hasOcc (ph : List Char) : List Char → Bool
  | [] => ph.isEmpty
  | c :: cs => ph.isPrefixOf (c :: cs) || hasOcc ph cs

/-- Number of non-overlapping occurrences found by the left-to-right scan
(Python `s.count(ph)` for non-empty `ph`). -/
def countOcc (s ph : List Char) : Nat := (pySplit s ph).length - 1

/-! ### Elementary facts about `isPrefixOf` -/

theorem isPrefixOf_iff_append {a b : List Char} :
    a.isPrefixOf b = true ↔ ∃ t, a ++ t = b := by
  induction a generalizing b with
  | nil => simp [List.isPrefixOf]
  | cons x xs ih =>
    cases b with
    | nil => simp [List.isPrefixOf]
    | cons y ys =>
      simp only [List.isPrefixOf, Bool.and_eq_true, beq_iff_eq, ih, List.cons_append,
        List.cons.injEq]
      constructor
      · rintro ⟨rfl, t, rfl⟩; exact ⟨t, rfl, rfl⟩
      · rintro ⟨t, rfl, rfl⟩; exact ⟨rfl, t, rfl⟩

theorem isPrefixOf_append_self (a t : List Char) : a.isPrefixOf (a ++ t) = true :=
  isPrefixOf_iff_append.2 ⟨t, rfl⟩

theorem isPrefixOf_trans {a b c : List Char} (h₁ : a.isPrefixOf b = true)
    (h₂ : b.isPrefixOf c = true) : a.isPrefixOf c = true := by
  obtain ⟨t, rfl⟩ := isPrefixOf_iff_append.1 h₁
  obtain ⟨u, rfl⟩ := isPrefixOf_iff_append.1 h₂
  exact isPrefixOf_iff_append.2 ⟨t ++ u, by simp⟩

theorem length_le_of_isPrefixOf {a b : List Char} (h : a.isPrefixOf b = true) :
    a.length ≤ b.length := by
  obtain ⟨t, rfl⟩ := isPrefixOf_iff_append.1 h
  simp

/-! ### The scan and the split agree -/

theorem splitAux_ne_nil (ph : List Char) : ∀ fuel s, splitAux ph fuel s ≠ [] := by
  intro fuel
  induction fuel with
  | zero => intro s; simp [splitAux]
  | succ n ih =>
    intro s
    cases s with
    | nil => simp [splitAux]
    | cons c cs =>
      by_cases h : ph.isPrefixOf (c :: cs) = true
      · simp [splitAux, h]
      · simp only [splitAux, h]
        simp only [Bool.false_eq_true, if_false]
        cases hs : splitAux ph n cs with
        | nil => simp [consHead]
        | cons g gs => simp [consHead]

/-- The replacement scan is the separator scan re-joined with the replacement:
the embedding of the CPython identity `s.replace(a, b) == b.join(s.split(a))`
for a non-empty pattern. -/
theorem replaceAux_eq_joinWith (ph rep : List Char) :
    ∀ fuel s, replaceAux ph rep fuel s = joinWith rep (splitAux ph fuel s) := by
  intro fuel
  induction fuel with
  | zero => intro s; simp [replaceAux, splitAux, joinWith]
  | succ n ih =>
    intro s
    cases s with
    | nil => simp [replaceAux, splitAux, joinWith]
    | cons c cs =>
      by_cases h : ph.isPrefixOf (c :: cs) = true
      · simp only [replaceAux, splitAux, h, if_true, ih]
        cases hs : splitAux ph n ((c :: cs).drop ph.length) with
        | nil => exact absurd hs (splitAux_ne_nil ph n _)
        | cons g gs => simp [joinWith]
      · simp only [replaceAux, splitAux, h]
        simp only [Bool.false_eq_true, if_false, ih]
        cases hs : splitAux ph n cs with
        | nil => exact absurd hs (splitAux_ne_nil ph n _)
        | cons g gs =>
          cases gs with
          | nil => simp [joinWith, consHead]
          | cons g' gs' => simp [joinWith, consHead]

theorem pyReplace_eq_joinWith (s ph rep : List Char) (hph : ph ≠ []) :
    pyReplace s ph rep = joinWith rep (pySplit s ph) := by
  have h : ph.isEmpty = false := by cases ph with | nil => simp at hph | cons a l => rfl
  simp [pyReplace, pySplit, h, replaceAux_eq_joinWith]

/-- The head chunk produced by the splitting scan is a prefix of the scanned
string. -/
theorem splitAux_head_starts (ph : List Char) :
    ∀ fuel s g gs, splitAux ph fuel s = g :: gs → g.isPrefixOf s = true := by
  intro fuel
  induction fuel with
  | zero =>
    intro s g gs h
    simp only [splitAux, List.cons.injEq] at h
    cases h.1
    exact isPrefixOf_iff_append.2 ⟨[], by simp⟩
  | succ n ih =>
    intro s g gs h
    cases s with
    | nil =>
      simp only [splitAux, List.cons.injEq] at h
      cases h.1
      rfl
    | cons c cs =>
      by_cases hp : ph.isPrefixOf (c :: cs) = true
      · simp only [splitAux, hp, if_true, List.cons.injEq] at h
        cases h.1
        rfl
      · simp only [splitAux, hp] at h
        simp only [Bool.false_eq_true, if_false] at h
        cases hs : splitAux ph n cs with
        | nil => exact absurd hs (splitAux_ne_nil ph n _)
        | cons g' gs' =>
          rw [hs] at h
          simp only [consHead, List.cons.injEq] at h
          obtain ⟨rfl, rfl⟩ := h
          have := ih cs g' gs' hs
          obtain ⟨t, rfl⟩ := isPrefixOf_iff_append.1 this
          exact isPrefixOf_iff_append.2 ⟨t, rfl⟩

/-- No chunk produced by the splitting scan contains an occurrence of the
pattern: every occurrence is cut out by the scan. -/
theorem splitAux_no_occ (ph : List Char) (hph : ph ≠ []) :
    ∀ fuel s, s.length ≤ fuel → ∀ g ∈ splitAux ph fuel s, hasOcc ph g = false := by
  intro fuel
  induction fuel with
  | zero =>
    intro s hs g hg
    rw [Nat.le_zero, List.length_eq_zero] at hs
    subst hs
    simp only [splitAux, List.mem_singleton] at hg
    subst hg
    simp [hasOcc, List.isEmpty_iff, hph]
  | succ n ih =>
    intro s hs g hg
    cases s with
    | nil =>
      simp only [splitAux, List.mem_singleton] at hg
      subst hg
      simp [hasOcc, List.isEmpty_iff, hph]
    | cons c cs =>
      by_cases hp : ph.isPrefixOf (c :: cs) = true
      · simp only [splitAux, hp, if_true, List.mem_cons] at hg
        rcases hg with rfl | hg
        · simp [hasOcc, List.isEmpty_iff, hph]
        · refine ih _ ?_ g hg
          have hlen := length_le_of_isPrefixOf hp
          have hple : 1 ≤ ph.length := by
            cases ph with | nil => simp at hph | cons a l => simp
          simp only [List.length_drop, List.length_cons] at *
          omega
      · simp only [splitAux, hp] at hg
        simp only [Bool.false_eq_true, if_false] at hg
        cases hsplit : splitAux ph n cs with
        | nil => exact absurd hsplit (splitAux_ne_nil ph n _)
        | cons g' gs' =>
          rw [hsplit] at hg
          have hcs : cs.length ≤ n := by
            simp only [List.length_cons] at hs; omega
          simp only [consHead, List.mem_cons] at hg
          rcases hg with rfl | hg
          · have hg' : hasOcc ph g' = false :=
              ih cs hcs g' (hsplit ▸ List.mem_cons_self g' gs')
            have hpre : ph.isPrefixOf (c :: g') = false := by
              by_contra hcon
              rw [Bool.not_eq_false] at hcon
              have hgp : (c :: g').isPrefixOf (c :: cs) = true := by
                have := splitAux_head_starts ph n cs g' gs' hsplit
                obtain ⟨t, rfl⟩ := isPrefixOf_iff_append.1 this
                exact isPrefixOf_append_self _ _
              exact absurd (isPrefixOf_trans hcon hgp) (by simp [hp])
            simp [hasOcc, hpre, hg']
          · exact ih cs hcs g (hsplit ▸ List.mem_cons_of_mem g' hg)

/-- Chunk characterization of `pyReplace`: the scan rejoins the split with the
replacement, and no chunk of the split contains the pattern, i.e. the scan
substitutes every occurrence, not only the first. -/
theorem pyReplace_all_occurrences (s ph rep : List Char) (hph : ph ≠ []) :
    pyReplace s ph rep = joinWith rep (pySplit s ph) ∧
      ∀ g ∈ pySplit s ph, hasOcc ph g = false := by
  have h : ph.isEmpty = false := by cases ph with | nil => simp at hph | cons a l => rfl
  refine ⟨pyReplace_eq_joinWith s ph rep hph, ?_⟩
  intro g hg
  simp only [pySplit, h, Bool.false_eq_true, if_false] at hg
  exact splitAux_no_occ ph hph s.length s le_rfl g hg

/-! ## JSON values

The payload templates of `config.json` and the payloads sent by
`get_databases` are JSON documents.  `JValue` models them; numeric literals
are modelled as integers (the templates carry integer sizes), object fields
keep insertion order as Python dicts do. -/

inductive JValue where
  | jnull
  | jbool (b : Bool)
  | jint (n : Int)
  | jstr (s : List Char)
  | jarr (elems : List JValue)
  | jobj (fields : List (List Char × JValue))

/-! ### Serialization: `json.dumps`

Default CPython `json.dumps`: separators `", "` and `": "`, `ensure_ascii`
on, so `"` and `\` are escaped, control characters use the short escapes
`\n \t \r \b \f` or `\u00xx`, and every code point above `0x7e` becomes
`\uxxxx` (a surrogate pair beyond the basic plane). -/

/-- Decimal digit character. -/
def digitCh (n : Nat) : Char := Char.ofNat (48 + n)

/-- Lowercase hexadecimal digit character, as CPython's `json` emits. -/
def hexDigitCh (n : Nat) : Char := if n < 10 then Char.ofNat (48 + n) else Char.ofNat (87 + n)

/-- Four-digit hexadecimal rendering of `n % 65536`. -/
def toHex4 (n : Nat) : List Char :=
  [hexDigitCh (n / 4096 % 16), hexDigitCh (n / 256 % 16), hexDigitCh (n / 16 % 16),
    hexDigitCh (n % 16)]

/-- Decimal digits of a natural number; `fuel` makes the division recursion
structural and is always instantiated above the number itself. -/
def natCharsAux : Nat → Nat → List Char
  | 0, _ => []
  | fuel + 1, n =>
    if n < 10 then [digitCh n] else natCharsAux fuel (n / 10) ++ [digitCh (n % 10)]

/-- Decimal digits of a natural number, most significant first. -/
def natChars (n : Nat) : List Char := natCharsAux (n + 1) n

/-- Python `repr` of an integer as `json.dumps` prints it. -/
def intChars (n : Int) : List Char :=
  if n < 0 then '-' :: natChars n.natAbs else natChars n.toNat

/-- Escape one character the way `json.dumps` (with `ensure_ascii`) does:
printable ASCII other than quote and backslash passes through verbatim, the
short escapes cover quote, backslash and the common control characters, and
everything else becomes a `\uxxxx` group (two of them beyond the basic
plane). -/
def escapeChar (c : Char) : List Char :=
  if 32 <= c.toNat ∧ c.toNat <= 126 ∧ ¬c.toNat = 34 ∧ ¬c.toNat = 92 then [c]
  else if c.toNat = 34 then ['\\', '"']
  else if c.toNat = 92 then ['\\', '\\']
  else if c.toNat = 10 then ['\\', 'n']
  else if c.toNat = 9 then ['\\', 't']
  else if c.toNat = 13 then ['\\', 'r']
  else if c.toNat = 8 then ['\\', 'b']
  else if c.toNat = 12 then ['\\', 'f']
  else if c.toNat < 32 then '\\' :: 'u' :: toHex4 c.toNat
  else if c.toNat < 65536 then '\\' :: 'u' :: toHex4 c.toNat
  else
    '\\' :: 'u' :: toHex4 (55296 + (c.toNat - 65536) / 1024) ++
      '\\' :: 'u' :: toHex4 (56320 + (c.toNat - 65536) % 1024)

/-- Escape a string body character by character. -/
def escStr : List Char → List Char
  | [] => []
  | c :: cs => escapeChar c ++ escStr cs

mutual

/-- Serialize a JSON value exactly as `json.dumps(value)` renders it. -/
def dumps : JValue → List Char
  | .jnull => "null".toList
  | .jbool true => "true".toList
  | .jbool false => "false".toList
  | .jint n => intChars n
  | .jstr s => '"' :: escStr s ++ ['"']
  | .jarr es => '[' :: dumpsArr es ++ [']']
  | .jobj fs => '\x7b' :: dumpsObj fs ++ ['\x7d']

/-- Array items joined by `", "`. -/
def dumpsArr : List JValue → List Char
  | [] => []
  | [e] => dumps e
  | e :: e' :: es => dumps e ++ ',' :: ' ' :: dumpsArr (e' :: es)

/-- Object members `"key": value` joined by `", "`. -/
def dumpsObj : List (List Char × JValue) → List Char
  | [] => []
  | [(k, v)] => '"' :: escStr k ++ '"' :: ':' :: ' ' :: dumps v
  | (k, v) :: f :: fs => '"' :: escStr k ++ '"' :: ':' :: ' ' :: dumps v ++ ',' :: ' ' :: dumpsObj (f :: fs)

end

/-! ### Parsing: `json.loads` -/

/-- JSON whitespace characters. -/
def isWsChar (c : Char) : Bool := c = ' ' || c = '\n' || c = '\t' || c = '\r'

/-- Drop leading whitespace. -/
def skipWs : List Char → List Char
  | [] => []
  | c :: cs => if isWsChar c then skipWs cs else c :: cs

/-- Value of a decimal digit character, if it is one. -/
def digitVal (c : Char) : Option Nat :=
  if 48 ≤ c.toNat ∧ c.toNat ≤ 57 then some (c.toNat - 48) else none

/-- Value of a hexadecimal digit character, if it is one. -/
def hexVal (c : Char) : Option Nat :=
  if 48 ≤ c.toNat ∧ c.toNat ≤ 57 then some (c.toNat - 48)
  else if 97 ≤ c.toNat ∧ c.toNat ≤ 102 then some (c.toNat - 87)
  else if 65 ≤ c.toNat ∧ c.toNat ≤ 70 then some (c.toNat - 55)
  else none

/-- Consume an expected literal character sequence. -/
def expectChars : List Char → List Char → Option (List Char)
  | [], s => some s
  | _ :: _, [] => none
  | p :: ps, c :: cs => if c = p then expectChars ps cs else none

/-- Combine four hexadecimal digit characters into their value. -/
def hex4Val (h1 h2 h3 h4 : Char) : Option Nat :=
  match hexVal h1, hexVal h2, hexVal h3, hexVal h4 with
  | some a, some b, some x, some d => some (((a * 16 + b) * 16 + x) * 16 + d)
  | _, _, _, _ => none

/-- Parse a low surrogate escape `\uxxxx` expected right after a high
surrogate, returning its value and the remainder. -/
def parseLowSurrogate : List Char → Option (Nat × List Char)
  | b1 :: b2 :: g1 :: g2 :: g3 :: g4 :: rest =>
    if b1 = '\\' ∧ b2 = 'u' then
      match hex4Val g1 g2 g3 g4 with
      | some m => if 56320 ≤ m ∧ m ≤ 57343 then some (m, rest) else none
      | none => none
    else none
  | _ => none

/-- Decode the four hex digits after `\u`, combining a surrogate pair into
one code point, as `json.loads` does. -/
def parseUnicodeEsc : List Char → Option (Nat × List Char)
  | h1 :: h2 :: h3 :: h4 :: rest =>
    match hex4Val h1 h2 h3 h4 with
    | some n =>
      if 55296 ≤ n ∧ n ≤ 56319 then
        match parseLowSurrogate rest with
        | some (m, rest2) => some (65536 + (n - 55296) * 1024 + (m - 56320), rest2)
        | none => none
      else if 56320 ≤ n ∧ n ≤ 57343 then none
      else some (n, rest)
    | none => none
  | _ => none

/-- Parse the body of a string literal after the opening quote; `fuel` bounds
the number of decoded characters and is always instantiated above the input
length. -/
def parseStringBodyAux : Nat → List Char → Option (List Char × List Char)
  | 0, _ => none
  | fuel + 1, s =>
    match s with
    | [] => none
    | c :: rest =>
      if c = '"' then some ([], rest)
      else if c = '\\' then
        match rest with
        | [] => none
        | e :: rest2 =>
          if e = '"' then (parseStringBodyAux fuel rest2).map (fun p => ('"' :: p.1, p.2))
          else if e = '\\' then (parseStringBodyAux fuel rest2).map (fun p => ('\\' :: p.1, p.2))
          else if e = '/' then (parseStringBodyAux fuel rest2).map (fun p => ('/' :: p.1, p.2))
          else if e = 'n' then (parseStringBodyAux fuel rest2).map (fun p => ('\n' :: p.1, p.2))
          else if e = 't' then (parseStringBodyAux fuel rest2).map (fun p => ('\t' :: p.1, p.2))
          else if e = 'r' then (parseStringBodyAux fuel rest2).map (fun p => ('\r' :: p.1, p.2))
          else if e = 'b' then
            (parseStringBodyAux fuel rest2).map (fun p => (Char.ofNat 8 :: p.1, p.2))
          else if e = 'f' then
            (parseStringBodyAux fuel rest2).map (fun p => (Char.ofNat 12 :: p.1, p.2))
          else if e = 'u' then
            match parseUnicodeEsc rest2 with
            | some (n, rest3) =>
              (parseStringBodyAux fuel rest3).map (fun p => (Char.ofNat n :: p.1, p.2))
            | none => none
          else none
      else if c.toNat < 32 then none
      else (parseStringBodyAux fuel rest).map (fun p => (c :: p.1, p.2))

/-- Parse the body of a string literal after the opening quote, returning the
decoded string and the remainder after the closing quote. -/
def parseStringBody (s : List Char) : Option (List Char × List Char) :=
  parseStringBodyAux (s.length + 1) s

/-- Consume a run of decimal digits, folding their value onto `acc`. -/
def parseNatAux : Nat → List Char → Nat × List Char
  | acc, [] => (acc, [])
  | acc, c :: cs =>
    match digitVal c with
    | some d => parseNatAux (acc * 10 + d) cs
    | none => (acc, c :: cs)

/-- Parse a non-empty run of decimal digits. -/
def parseNat : List Char → Option (Nat × List Char)
  | [] => none
  | c :: cs =>
    match digitVal c with
    | some d => some (parseNatAux d cs)
    | none => none

mutual

/-- Parse one JSON value (after optional whitespace); `fuel` bounds nesting
and list length and is always instantiated above the input length. -/
def parseVal : Nat → List Char → Option (JValue × List Char)
  | 0, _ => none
  | fuel + 1, s =>
    match skipWs s with
    | [] => none
    | c :: rest =>
      if c = 'n' then (expectChars "ull".toList rest).map (fun r => (JValue.jnull, r))
      else if c = 't' then (expectChars "rue".toList rest).map (fun r => (JValue.jbool true, r))
      else if c = 'f' then (expectChars "alse".toList rest).map (fun r => (JValue.jbool false, r))
      else if c = '"' then (parseStringBody rest).map (fun p => (JValue.jstr p.1, p.2))
      else if c = '-' then (parseNat rest).map (fun p => (JValue.jint (-(p.1 : Int)), p.2))
      else if (digitVal c).isSome then
        (parseNat (c :: rest)).map (fun p => (JValue.jint (p.1 : Int), p.2))
      else if c = '[' then
        match skipWs rest with
        | ']' :: r2 => some (JValue.jarr [], r2)
        | s2 => (parseItems fuel s2).map (fun p => (JValue.jarr p.1, p.2))
      else if c = '\x7b' then
        match skipWs rest with
        | '\x7d' :: r2 => some (JValue.jobj [], r2)
        | s2 => (parseMembers fuel s2).map (fun p => (JValue.jobj p.1, p.2))
      else none

/-- Parse the comma-separated items of a non-empty array up to `]`. -/
def parseItems : Nat → List Char → Option (List JValue × List Char)
  | 0, _ => none
  | fuel + 1, s =>
    match parseVal fuel s with
    | none => none
    | some (v, r) =>
      match skipWs r with
      | ',' :: r2 => (parseItems fuel r2).map (fun p => (v :: p.1, p.2))
      | ']' :: r2 => some ([v], r2)
      | _ => none

/-- Parse the comma-separated members of a non-empty object up to the
closing brace. -/
def parseMembers : Nat → List Char → Option (List (List Char × JValue) × List Char)
  | 0, _ => none
  | fuel + 1, s =>
    match skipWs s with
    | '"' :: r =>
      match parseStringBody r with
      | none => none
      | some (k, r2) =>
        match skipWs r2 with
        | ':' :: r3 =>
          match parseVal fuel r3 with
          | none => none
          | some (v, r4) =>
            match skipWs r4 with
            | ',' :: r5 => (parseMembers fuel r5).map (fun p => ((k, v) :: p.1, p.2))
            | '\x7d' :: r5 => some ([(k, v)], r5)
            | _ => none
        | _ => none
    | _ => none

end

/-- Parse a complete document as `json.loads` does: one value, then only
whitespace to the end of input. -/
def loads (s : List Char) : Option JValue :=
  match parseVal (s.length + 1) s with
  | some (v, rest) => match skipWs rest with | [] => some v | _ :: _ => none
  | none => none

/-! ### Round trip: `loads (dumps v) = some v`

`json.loads` inverts `json.dumps`; the lemmas below establish this for the
embedding, which is what makes the templating analysis of `get_databases`
meaningful. -/

/-- Input whose head cannot extend a decimal literal. -/
def noDigitHead : List Char → Bool
  | [] => true
  | c :: _ => !(digitVal c).isSome

theorem expectChars_append (pat rest : List Char) :
    expectChars pat (pat ++ rest) = some rest := by
  induction pat with
  | nil => rfl
  | cons p ps ih => simp [expectChars, ih]

theorem hexVal_hexDigitCh (k : Nat) (hk : k < 16) : hexVal (hexDigitCh k) = some k := by
  interval_cases k <;> rfl

theorem digitVal_digitCh (k : Nat) (hk : k < 10) : digitVal (digitCh k) = some k := by
  interval_cases k <;> rfl

theorem char_ne_of_toNat_ne {c d : Char} (h : ¬c.toNat = d.toNat) : ¬c = d :=
  fun e => h (by rw [e])

theorem hex4Val_toHex4 (n : Nat) (hn : n < 65536) :
    hex4Val (hexDigitCh (n / 4096 % 16)) (hexDigitCh (n / 256 % 16))
      (hexDigitCh (n / 16 % 16)) (hexDigitCh (n % 16)) = some n := by
  simp only [hex4Val, hexVal_hexDigitCh _ (Nat.mod_lt _ (by omega))]
  exact congrArg some (by omega)

theorem toNat_digitCh (k : Nat) (hk : k < 10) : (digitCh k).toNat = 48 + k := by
  interval_cases k <;> rfl

theorem natCharsAux_digits :
    ∀ fuel n c, c ∈ natCharsAux fuel n → 48 ≤ c.toNat ∧ c.toNat ≤ 57 := by
  intro fuel
  induction fuel with
  | zero => intro n c hc; simp [natCharsAux] at hc
  | succ m ih =>
    intro n c hc
    by_cases h : n < 10
    · simp only [natCharsAux, h, if_true, List.mem_singleton] at hc
      subst hc
      rw [toNat_digitCh n h]
      omega
    · simp only [natCharsAux, h, if_false, List.mem_append, List.mem_singleton] at hc
      rcases hc with hc | rfl
      · exact ih _ c hc
      · rw [toNat_digitCh _ (Nat.mod_lt n (by omega))]
        have := Nat.mod_lt n (show 0 < 10 by omega)
        omega

theorem natCharsAux_ne_nil (fuel n : Nat) (h : 0 < fuel) : natCharsAux fuel n ≠ [] := by
  cases fuel with
  | zero => omega
  | succ m =>
    by_cases hn : n < 10
    · simp [natCharsAux, hn]
    · simp [natCharsAux, hn]

theorem natChars_digits (n : Nat) (c : Char) (hc : c ∈ natChars n) :
    48 ≤ c.toNat ∧ c.toNat ≤ 57 := natCharsAux_digits _ n c hc

theorem natChars_ne_nil (n : Nat) : natChars n ≠ [] := natCharsAux_ne_nil _ n (by omega)

/-- Accumulated decimal value of a digit run. -/
def valAcc (acc : Nat) : List Char → Nat
  | [] => acc
  | c :: cs => valAcc (acc * 10 + (digitVal c).getD 0) cs

theorem parseNatAux_digits :
    ∀ ds acc tail, (∀ c ∈ ds, (digitVal c).isSome = true) →
      parseNatAux acc (ds ++ tail) = parseNatAux (valAcc acc ds) tail := by
  intro ds
  induction ds with
  | nil => intro acc tail _; rfl
  | cons c cs ih =>
    intro acc tail hds
    have hc : (digitVal c).isSome = true := hds c (List.mem_cons_self c cs)
    obtain ⟨d, hd⟩ := Option.isSome_iff_exists.1 hc
    simp only [List.cons_append, parseNatAux, hd, valAcc, Option.getD_some, List.append_eq]
    rw [ih _ tail (fun x hx => hds x (List.mem_cons_of_mem c hx))]

theorem parseNatAux_stop (acc : Nat) (rest : List Char) (h : noDigitHead rest = true) :
    parseNatAux acc rest = (acc, rest) := by
  cases rest with
  | nil => rfl
  | cons c cs =>
    have hnone : digitVal c = none := by
      cases hd : digitVal c with
      | none => rfl
      | some d => simp [noDigitHead, hd] at h
    simp [parseNatAux, hnone]

theorem valAcc_append (a b : List Char) : ∀ acc, valAcc acc (a ++ b) = valAcc (valAcc acc a) b := by
  induction a with
  | nil => intro acc; rfl
  | cons c cs ih => intro acc; simp only [List.cons_append, valAcc]; exact ih _

theorem valAcc_natCharsAux :
    ∀ fuel n acc, n < fuel →
      valAcc acc (natCharsAux fuel n) = acc * 10 ^ (natCharsAux fuel n).length + n := by
  intro fuel
  induction fuel with
  | zero => intro n acc h; omega
  | succ m ih =>
    intro n acc h
    by_cases hn : n < 10
    · simp only [natCharsAux, hn, if_true, valAcc, digitVal_digitCh n hn, Option.getD_some,
        List.length_singleton, pow_one]
    · have hrec : n / 10 < m := by
        have h1 : n / 10 < n := Nat.div_lt_self (by omega) (by omega)
        omega
      have hall : ∀ c ∈ natCharsAux m (n / 10), (digitVal c).isSome = true := by
        intro c hc
        have := natCharsAux_digits m (n / 10) c hc
        simp only [digitVal, Option.isSome_some, if_pos (by omega : 48 ≤ c.toNat ∧ c.toNat ≤ 57)]
      simp only [natCharsAux, hn, if_false]
      rw [valAcc_append, ih (n / 10) acc hrec]
      simp only [valAcc, digitVal_digitCh _ (Nat.mod_lt n (by omega)), Option.getD_some,
        List.length_append, List.length_singleton]
      have hmod := Nat.div_add_mod n 10
      rw [pow_succ]
      ring_nf
      omega

theorem parseNat_natChars (n : Nat) (rest : List Char) (hrest : noDigitHead rest = true) :
    parseNat (natChars n ++ rest) = some (n, rest) := by
  cases hnc : natChars n with
  | nil => exact absurd hnc (natChars_ne_nil n)
  | cons c ds =>
    have hcdig : 48 ≤ c.toNat ∧ c.toNat ≤ 57 :=
      natChars_digits n c (by rw [hnc]; exact List.mem_cons_self c ds)
    have hc : digitVal c = some (c.toNat - 48) := by simp [digitVal, hcdig]
    have hall : ∀ x ∈ ds, (digitVal x).isSome = true := by
      intro x hx
      have := natChars_digits n x (by rw [hnc]; exact List.mem_cons_of_mem c hx)
      simp [digitVal, this]
    simp only [List.cons_append, parseNat, hc]
    rw [parseNatAux_digits ds (c.toNat - 48) rest hall, parseNatAux_stop _ rest hrest]
    have hval : valAcc 0 (natChars n) = n := by
      have := valAcc_natCharsAux (n + 1) n 0 (by omega)
      simpa [natChars] using this
    rw [hnc] at hval
    simp only [valAcc, hc, Option.getD_some, Nat.zero_mul, Nat.zero_add] at hval
    rw [hval]

theorem skipWs_not_ws {c : Char} (h : isWsChar c = false) (cs : List Char) :
    skipWs (c :: cs) = c :: cs := by
  simp [skipWs, h]


/-- Ground character disequalities driving the escape dispatch of
`parseStringBodyAux`. -/
theorem escCharNeFacts :
    ¬(('\\' : Char) = '"') ∧
    ¬(('n' : Char) = '"') ∧ ¬(('n' : Char) = '\\') ∧
    ¬(('n' : Char) = '/') ∧
    ¬(('t' : Char) = '"') ∧ ¬(('t' : Char) = '\\') ∧
    ¬(('t' : Char) = '/') ∧ ¬(('t' : Char) = 'n') ∧
    ¬(('r' : Char) = '"') ∧ ¬(('r' : Char) = '\\') ∧
    ¬(('r' : Char) = '/') ∧ ¬(('r' : Char) = 'n') ∧
    ¬(('r' : Char) = 't') ∧
    ¬(('b' : Char) = '"') ∧ ¬(('b' : Char) = '\\') ∧
    ¬(('b' : Char) = '/') ∧ ¬(('b' : Char) = 'n') ∧
    ¬(('b' : Char) = 't') ∧ ¬(('b' : Char) = 'r') ∧
    ¬(('f' : Char) = '"') ∧ ¬(('f' : Char) = '\\') ∧
    ¬(('f' : Char) = '/') ∧ ¬(('f' : Char) = 'n') ∧
    ¬(('f' : Char) = 't') ∧ ¬(('f' : Char) = 'r') ∧
    ¬(('f' : Char) = 'b') ∧
    ¬(('u' : Char) = '"') ∧ ¬(('u' : Char) = '\\') ∧
    ¬(('u' : Char) = '/') ∧ ¬(('u' : Char) = 'n') ∧
    ¬(('u' : Char) = 't') ∧ ¬(('u' : Char) = 'r') ∧
    ¬(('u' : Char) = 'b') ∧ ¬(('u' : Char) = 'f') := by
  decide

/-- Unicode scalar value range of a character, phrased via `Char.toNat`. -/
theorem char_toNat_valid (c : Char) :
    c.toNat < 55296 ∨ (57343 < c.toNat ∧ c.toNat < 1114112) := by
  rcases c.valid with h | ⟨h1, h2⟩
  · left; exact h
  · right; exact ⟨h1, h2⟩

/-- Parsing a basic-plane `\uxxxx` digit group yields the encoded value. -/
theorem parseUnicodeEsc_basic (n : Nat) (hn : n < 65536) (hns : ¬(55296 ≤ n ∧ n ≤ 57343))
    (tail : List Char) : parseUnicodeEsc (toHex4 n ++ tail) = some (n, tail) := by
  have hhex := hex4Val_toHex4 n hn
  simp only [toHex4, List.cons_append, List.nil_append]
  simp only [parseUnicodeEsc, hhex]
  rw [if_neg (by omega : ¬(55296 ≤ n ∧ n ≤ 56319)),
    if_neg (by omega : ¬(56320 ≤ n ∧ n ≤ 57343))]

/-- Parsing a surrogate-pair digit group yields the combined code point. -/
theorem parseUnicodeEsc_pair (n m : Nat) (hn1 : 55296 ≤ n) (hn2 : n ≤ 56319)
    (hm1 : 56320 ≤ m) (hm2 : m ≤ 57343) (tail : List Char) :
    parseUnicodeEsc (toHex4 n ++ ('\\' :: ('u' :: (toHex4 m ++ tail)))) =
      some (65536 + (n - 55296) * 1024 + (m - 56320), tail) := by
  have hhn := hex4Val_toHex4 n (by omega)
  have hhm := hex4Val_toHex4 m (by omega)
  simp only [toHex4, List.cons_append, List.nil_append]
  simp only [parseUnicodeEsc, parseLowSurrogate, hhn, hhm, if_true, and_self]
  rw [if_pos ⟨hn1, hn2⟩, if_pos ⟨hm1, hm2⟩]

/-- One step of `parseStringBodyAux` on each input class, with the tail kept
generic so the unfolding stays small. -/
theorem stringStep_quote (fuel : Nat) (X : List Char) :
    parseStringBodyAux (fuel + 1) ('"' :: X) = some ([], X) := by
  simp [parseStringBodyAux]

theorem stringStep_escQuote (fuel : Nat) (X : List Char) :
    parseStringBodyAux (fuel + 1) ('\\' :: ('"' :: X)) =
      (parseStringBodyAux fuel X).map (fun p => ('"' :: p.1, p.2)) := by
  simp only [parseStringBodyAux, escCharNeFacts, if_true, if_false]

theorem stringStep_escBackslash (fuel : Nat) (X : List Char) :
    parseStringBodyAux (fuel + 1) ('\\' :: ('\\' :: X)) =
      (parseStringBodyAux fuel X).map (fun p => ('\\' :: p.1, p.2)) := by
  simp only [parseStringBodyAux, escCharNeFacts, if_true, if_false]

theorem stringStep_escN (fuel : Nat) (X : List Char) :
    parseStringBodyAux (fuel + 1) ('\\' :: ('n' :: X)) =
      (parseStringBodyAux fuel X).map (fun p => ('\n' :: p.1, p.2)) := by
  simp only [parseStringBodyAux, escCharNeFacts, if_true, if_false]

theorem stringStep_escT (fuel : Nat) (X : List Char) :
    parseStringBodyAux (fuel + 1) ('\\' :: ('t' :: X)) =
      (parseStringBodyAux fuel X).map (fun p => ('\t' :: p.1, p.2)) := by
  simp only [parseStringBodyAux, escCharNeFacts, if_true, if_false]

theorem stringStep_escR (fuel : Nat) (X : List Char) :
    parseStringBodyAux (fuel + 1) ('\\' :: ('r' :: X)) =
      (parseStringBodyAux fuel X).map (fun p => ('\r' :: p.1, p.2)) := by
  simp only [parseStringBodyAux, escCharNeFacts, if_true, if_false]

theorem stringStep_escB (fuel : Nat) (X : List Char) :
    parseStringBodyAux (fuel + 1) ('\\' :: ('b' :: X)) =
      (parseStringBodyAux fuel X).map (fun p => (Char.ofNat 8 :: p.1, p.2)) := by
  simp only [parseStringBodyAux, escCharNeFacts, if_true, if_false]

theorem stringStep_escF (fuel : Nat) (X : List Char) :
    parseStringBodyAux (fuel + 1) ('\\' :: ('f' :: X)) =
      (parseStringBodyAux fuel X).map (fun p => (Char.ofNat 12 :: p.1, p.2)) := by
  simp only [parseStringBodyAux, escCharNeFacts, if_true, if_false]

theorem stringStep_escU (fuel : Nat) (X : List Char) :
    parseStringBodyAux (fuel + 1) ('\\' :: ('u' :: X)) =
      match parseUnicodeEsc X with
      | some (n, rest3) =>
        (parseStringBodyAux fuel rest3).map (fun p => (Char.ofNat n :: p.1, p.2))
      | none => none := by
  simp only [parseStringBodyAux, escCharNeFacts, if_true, if_false]

theorem stringStep_plain (fuel : Nat) (c : Char) (X : List Char) (hc1 : ¬c = '"')
    (hc2 : ¬c = '\\') (hc3 : ¬c.toNat < 32) :
    parseStringBodyAux (fuel + 1) (c :: X) =
      (parseStringBodyAux fuel X).map (fun p => (c :: p.1, p.2)) := by
  simp only [parseStringBodyAux, if_neg hc1, if_neg hc2, if_neg hc3]

/-- Decoding inverts `json.dumps` string escaping: parsing the escaped body
followed by a closing quote recovers the original string. -/
theorem parseStringBodyAux_escStr :
    ∀ fuel, ∀ s rest : List Char, (escStr s).length < fuel →
      parseStringBodyAux fuel (escStr s ++ '"' :: rest) = some (s, rest) := by
  intro fuel
  induction fuel with
  | zero => intro s rest h; omega
  | succ n ih =>
    intro s rest h
    cases s with
    | nil =>
      simp only [escStr, List.nil_append]
      exact stringStep_quote n rest
    | cons c cs =>
      simp only [escStr, List.length_append] at h
      rw [show escStr (c :: cs) ++ '"' :: rest =
          escapeChar c ++ (escStr cs ++ '"' :: rest) by simp [escStr]]
      by_cases h0 : 32 <= c.toNat ∧ c.toNat <= 126 ∧ ¬c.toNat = 34 ∧ ¬c.toNat = 92
      · have he : escapeChar c = [c] := by simp [escapeChar, h0]
        rw [he] at h ⊢
        simp only [List.cons_append, List.nil_append]
        have hc1 : ¬c = '"' :=
          char_ne_of_toNat_ne (by have : ('"' : Char).toNat = 34 := rfl; omega)
        have hc2 : ¬c = '\\' :=
          char_ne_of_toNat_ne (by have : ('\\' : Char).toNat = 92 := rfl; omega)
        rw [stringStep_plain n c _ hc1 hc2 (by omega), ih cs rest (by simp at h; omega)]
        rfl
      by_cases h1 : c.toNat = 34
      · have hc : c = Char.ofNat 34 := by rw [← Char.ofNat_toNat c, h1]
        have he : escapeChar c = ['\\', '"'] := by rw [hc]; rfl
        rw [he] at h ⊢
        simp only [List.cons_append, List.nil_append]
        rw [stringStep_escQuote, ih cs rest (by simp at h; omega), hc]
        rfl
      by_cases h2 : c.toNat = 92
      · have hc : c = Char.ofNat 92 := by rw [← Char.ofNat_toNat c, h2]
        have he : escapeChar c = ['\\', '\\'] := by rw [hc]; rfl
        rw [he] at h ⊢
        simp only [List.cons_append, List.nil_append]
        rw [stringStep_escBackslash, ih cs rest (by simp at h; omega), hc]
        rfl
      by_cases h3 : c.toNat = 10
      · have hc : c = Char.ofNat 10 := by rw [← Char.ofNat_toNat c, h3]
        have he : escapeChar c = ['\\', 'n'] := by rw [hc]; rfl
        rw [he] at h ⊢
        simp only [List.cons_append, List.nil_append]
        rw [stringStep_escN, ih cs rest (by simp at h; omega), hc]
        rfl
      by_cases h4 : c.toNat = 9
      · have hc : c = Char.ofNat 9 := by rw [← Char.ofNat_toNat c, h4]
        have he : escapeChar c = ['\\', 't'] := by rw [hc]; rfl
        rw [he] at h ⊢
        simp only [List.cons_append, List.nil_append]
        rw [stringStep_escT, ih cs rest (by simp at h; omega), hc]
        rfl
      by_cases h5 : c.toNat = 13
      · have hc : c = Char.ofNat 13 := by rw [← Char.ofNat_toNat c, h5]
        have he : escapeChar c = ['\\', 'r'] := by rw [hc]; rfl
        rw [he] at h ⊢
        simp only [List.cons_append, List.nil_append]
        rw [stringStep_escR, ih cs rest (by simp at h; omega), hc]
        rfl
      by_cases h6 : c.toNat = 8
      · have hc : c = Char.ofNat 8 := by rw [← Char.ofNat_toNat c, h6]
        have he : escapeChar c = ['\\', 'b'] := by rw [hc]; rfl
        rw [he] at h ⊢
        simp only [List.cons_append, List.nil_append]
        rw [stringStep_escB, ih cs rest (by simp at h; omega), hc]
        rfl
      by_cases h7 : c.toNat = 12
      · have hc : c = Char.ofNat 12 := by rw [← Char.ofNat_toNat c, h7]
        have he : escapeChar c = ['\\', 'f'] := by rw [hc]; rfl
        rw [he] at h ⊢
        simp only [List.cons_append, List.nil_append]
        rw [stringStep_escF, ih cs rest (by simp at h; omega), hc]
        rfl
      by_cases h8 : c.toNat < 32
      · have he : escapeChar c = '\\' :: ('u' :: toHex4 c.toNat) := by
          simp only [escapeChar, if_neg h0, if_neg h1, if_neg h2, if_neg h3, if_neg h4,
            if_neg h5, if_neg h6, if_neg h7, if_pos h8]
        rw [he] at h ⊢
        simp only [List.cons_append]
        rw [stringStep_escU]
        simp only [parseUnicodeEsc_basic c.toNat (by omega) (by omega)]
        rw [ih cs rest (by simp [toHex4] at h; omega), Char.ofNat_toNat]
        rfl
      by_cases h10 : c.toNat < 65536
      · have hrange := char_toNat_valid c
        have he : escapeChar c = '\\' :: ('u' :: toHex4 c.toNat) := by
          simp only [escapeChar, if_neg h0, if_neg h1, if_neg h2, if_neg h3, if_neg h4,
            if_neg h5, if_neg h6, if_neg h7, if_neg h8, if_pos h10]
        rw [he] at h ⊢
        simp only [List.cons_append]
        rw [stringStep_escU]
        simp only [parseUnicodeEsc_basic c.toNat (by omega) (by omega)]
        rw [ih cs rest (by simp [toHex4] at h; omega), Char.ofNat_toNat]
        rfl
      · have hmax : c.toNat < 1114112 := by
          rcases char_toNat_valid c with hv | ⟨hva, hvb⟩
          · omega
          · exact hvb
        have he : escapeChar c = '\\' ::
            ('u' :: (toHex4 (55296 + (c.toNat - 65536) / 1024) ++
              ('\\' :: ('u' :: toHex4 (56320 + (c.toNat - 65536) % 1024))))) := by
          simp only [escapeChar, if_neg h0, if_neg h1, if_neg h2, if_neg h3, if_neg h4,
            if_neg h5, if_neg h6, if_neg h7, if_neg h8, if_neg h10]
          simp
        rw [he] at h ⊢
        simp only [List.cons_append, List.append_assoc]
        rw [stringStep_escU]
        simp only [parseUnicodeEsc_pair (55296 + (c.toNat - 65536) / 1024)
          (56320 + (c.toNat - 65536) % 1024) (by omega) (by omega) (by omega) (by omega)]
        have hchar : 65536 + ((55296 + (c.toNat - 65536) / 1024) - 55296) * 1024 +
            ((56320 + (c.toNat - 65536) % 1024) - 56320) = c.toNat := by omega
        rw [hchar]
        rw [ih cs rest (by simp [toHex4] at h; omega), Char.ofNat_toNat]
        rfl

/-- Wrapper form of the escape round trip for `parseStringBody`. -/
theorem parseStringBody_escStr (s rest : List Char) :
    parseStringBody (escStr s ++ '"' :: rest) = some (s, rest) := by
  apply parseStringBodyAux_escStr
  simp only [List.length_append, List.length_cons]
  omega

theorem skipWs_cons_space (s : List Char) : skipWs (' ' :: s) = skipWs s := by
  simp [skipWs, isWsChar]

theorem isWsChar_eq_false {c : Char}
    (h : ¬c.toNat = 32 ∧ ¬c.toNat = 10 ∧ ¬c.toNat = 9 ∧ ¬c.toNat = 13) :
    isWsChar c = false := by
  have h1 : ¬c = ' ' := char_ne_of_toNat_ne (by have : (' ' : Char).toNat = 32 := rfl; omega)
  have h2 : ¬c = '\n' := char_ne_of_toNat_ne (by have : ('\n' : Char).toNat = 10 := rfl; omega)
  have h3 : ¬c = '\t' := char_ne_of_toNat_ne (by have : ('\t' : Char).toNat = 9 := rfl; omega)
  have h4 : ¬c = '\r' := char_ne_of_toNat_ne (by have : ('\r' : Char).toNat = 13 := rfl; omega)
  simp [isWsChar, h1, h2, h3, h4]

theorem digitVal_isSome_bounds {c : Char} (h : (digitVal c).isSome = true) :
    48 <= c.toNat ∧ c.toNat <= 57 := by
  by_cases hb : 48 <= c.toNat ∧ c.toNat <= 57
  · exact hb
  · simp [digitVal, hb] at h

/-- Ground character facts driving the dispatch of `parseVal`. -/
theorem jsonHeadNeFacts :
    ¬(('t' : Char) = 'n') ∧
    ¬(('f' : Char) = 'n') ∧ ¬(('f' : Char) = 't') ∧
    ¬(('"' : Char) = 'n') ∧ ¬(('"' : Char) = 't') ∧ ¬(('"' : Char) = 'f') ∧
    ¬(('-' : Char) = 'n') ∧ ¬(('-' : Char) = 't') ∧ ¬(('-' : Char) = 'f') ∧
    ¬(('-' : Char) = '"') ∧
    ¬(('[' : Char) = 'n') ∧ ¬(('[' : Char) = 't') ∧ ¬(('[' : Char) = 'f') ∧
    ¬(('[' : Char) = '"') ∧ ¬(('[' : Char) = '-') ∧
    ¬(('\x7b' : Char) = 'n') ∧ ¬(('\x7b' : Char) = 't') ∧ ¬(('\x7b' : Char) = 'f') ∧
    ¬(('\x7b' : Char) = '"') ∧ ¬(('\x7b' : Char) = '-') ∧ ¬(('\x7b' : Char) = '[') ∧
    digitVal '[' = none ∧ digitVal '\x7b' = none := by
  decide

/-! ### One step of `parseVal` on each head class -/

theorem valStep_null (fuel : Nat) (X : List Char) :
    parseVal (fuel + 1) ('n' :: X) =
      (expectChars "ull".toList X).map (fun r => (JValue.jnull, r)) := by
  rw [parseVal, skipWs_not_ws (by decide : isWsChar 'n' = false)]
  simp only [if_true, if_false, eq_self_iff_true]

theorem valStep_true (fuel : Nat) (X : List Char) :
    parseVal (fuel + 1) ('t' :: X) =
      (expectChars "rue".toList X).map (fun r => (JValue.jbool true, r)) := by
  rw [parseVal, skipWs_not_ws (by decide : isWsChar 't' = false)]
  simp only [jsonHeadNeFacts, if_true, if_false, eq_self_iff_true]

theorem valStep_false (fuel : Nat) (X : List Char) :
    parseVal (fuel + 1) ('f' :: X) =
      (expectChars "alse".toList X).map (fun r => (JValue.jbool false, r)) := by
  rw [parseVal, skipWs_not_ws (by decide : isWsChar 'f' = false)]
  simp only [jsonHeadNeFacts, if_true, if_false, eq_self_iff_true]

theorem valStep_str (fuel : Nat) (X : List Char) :
    parseVal (fuel + 1) ('"' :: X) =
      (parseStringBody X).map (fun p => (JValue.jstr p.1, p.2)) := by
  rw [parseVal, skipWs_not_ws (by decide : isWsChar '"' = false)]
  simp only [jsonHeadNeFacts, if_true, if_false, eq_self_iff_true]

theorem valStep_neg (fuel : Nat) (X : List Char) :
    parseVal (fuel + 1) ('-' :: X) =
      (parseNat X).map (fun p => (JValue.jint (-(p.1 : Int)), p.2)) := by
  rw [parseVal, skipWs_not_ws (by decide : isWsChar '-' = false)]
  simp only [jsonHeadNeFacts, if_true, if_false, eq_self_iff_true]

theorem valStep_digit (fuel : Nat) (c : Char) (X : List Char)
    (hd : (digitVal c).isSome = true) :
    parseVal (fuel + 1) (c :: X) =
      (parseNat (c :: X)).map (fun p => (JValue.jint (p.1 : Int), p.2)) := by
  have hb := digitVal_isSome_bounds hd
  have hn : ¬c = 'n' := char_ne_of_toNat_ne (by have : ('n' : Char).toNat = 110 := rfl; omega)
  have ht : ¬c = 't' := char_ne_of_toNat_ne (by have : ('t' : Char).toNat = 116 := rfl; omega)
  have hf : ¬c = 'f' := char_ne_of_toNat_ne (by have : ('f' : Char).toNat = 102 := rfl; omega)
  have hq : ¬c = '"' := char_ne_of_toNat_ne (by have : ('"' : Char).toNat = 34 := rfl; omega)
  have hm : ¬c = '-' := char_ne_of_toNat_ne (by have : ('-' : Char).toNat = 45 := rfl; omega)
  have hw : isWsChar c = false := isWsChar_eq_false (by omega)
  rw [parseVal, skipWs_not_ws hw]
  simp only [if_neg hn, if_neg ht, if_neg hf, if_neg hq, if_neg hm, hd, if_true]

theorem valStep_arr (fuel : Nat) (X : List Char) :
    parseVal (fuel + 1) ('[' :: X) =
      match skipWs X with
      | ']' :: r2 => some (JValue.jarr [], r2)
      | s2 => (parseItems fuel s2).map (fun p => (JValue.jarr p.1, p.2)) := by
  rw [parseVal, skipWs_not_ws (by decide : isWsChar '[' = false)]
  simp only [jsonHeadNeFacts, if_true, if_false, eq_self_iff_true, Option.isSome_none,
    Bool.false_eq_true]

theorem valStep_obj (fuel : Nat) (X : List Char) :
    parseVal (fuel + 1) ('\x7b' :: X) =
      match skipWs X with
      | '\x7d' :: r2 => some (JValue.jobj [], r2)
      | s2 => (parseMembers fuel s2).map (fun p => (JValue.jobj p.1, p.2)) := by
  rw [parseVal, skipWs_not_ws (by decide : isWsChar '\x7b' = false)]
  simp only [jsonHeadNeFacts, if_true, if_false, eq_self_iff_true, Option.isSome_none,
    Bool.false_eq_true]


/-! ### Fuel measure and head facts for the value round trip -/

mutual

/-- Fuel needed by `parseVal` to parse the serialization of a value. -/
def jweight : JValue → Nat
  | .jarr es => 1 + jweightArr es
  | .jobj fs => 1 + jweightObj fs
  | _ => 1

/-- Fuel needed by `parseItems` for the items of an array. -/
def jweightArr : List JValue → Nat
  | [] => 0
  | e :: es => 1 + jweight e + jweightArr es

/-- Fuel needed by `parseMembers` for the members of an object. -/
def jweightObj : List (List Char × JValue) → Nat
  | [] => 0
  | (_, v) :: fs => 1 + jweight v + jweightObj fs

end

theorem jweight_pos : ∀ v : JValue, 1 <= jweight v
  | .jnull => le_refl 1
  | .jbool _ => le_refl 1
  | .jint _ => le_refl 1
  | .jstr _ => le_refl 1
  | .jarr _ => by simp [jweight]
  | .jobj _ => by simp [jweight]

/-- The serialization of a value starts with a character that is neither
whitespace nor a closing bracket. -/
theorem dumps_head (v : JValue) :
    ∃ c cs, dumps v = c :: cs ∧ isWsChar c = false ∧ ¬c = ']' := by
  cases v with
  | jnull => exact ⟨'n', _, rfl, by decide, by decide⟩
  | jbool b => cases b with
    | true => exact ⟨'t', _, rfl, by decide, by decide⟩
    | false => exact ⟨'f', _, rfl, by decide, by decide⟩
  | jint n =>
    by_cases hneg : n < 0
    · refine ⟨'-', natChars n.natAbs, ?_, by decide, by decide⟩
      simp [dumps, intChars, hneg]
    · cases hnc : natChars n.toNat with
      | nil => exact absurd hnc (natChars_ne_nil n.toNat)
      | cons c ds =>
        have hb := natChars_digits n.toNat c (by rw [hnc]; exact List.mem_cons_self c ds)
        refine ⟨c, ds, ?_, isWsChar_eq_false (by omega), char_ne_of_toNat_ne ?_⟩
        · simp [dumps, intChars, hneg, hnc]
        · have : (']' : Char).toNat = 93 := rfl
          omega
  | jstr s => exact ⟨'"', _, rfl, by decide, by decide⟩
  | jarr es => exact ⟨'[', _, rfl, by decide, by decide⟩
  | jobj fs => exact ⟨'\x7b', _, rfl, by decide, by decide⟩

theorem dumpsArr_cons (e : JValue) (es : List JValue) :
    ∃ t, dumpsArr (e :: es) = dumps e ++ t := by
  cases es with
  | nil => exact ⟨[], by simp [dumpsArr]⟩
  | cons e' es' => exact ⟨',' :: ' ' :: dumpsArr (e' :: es'), by simp [dumpsArr]⟩

theorem dumpsObj_cons (k : List Char) (v : JValue) (fs : List (List Char × JValue)) :
    ∃ t, dumpsObj ((k, v) :: fs) =
      '"' :: (escStr k ++ ('"' :: (':' :: (' ' :: (dumps v ++ t))))) := by
  cases fs with
  | nil => exact ⟨[], by simp [dumpsObj]⟩
  | cons f' fs' => exact ⟨',' :: ' ' :: dumpsObj (f' :: fs'), by simp [dumpsObj]⟩

theorem parseVal_cons_space (fuel : Nat) (X : List Char) :
    parseVal fuel (' ' :: X) = parseVal fuel X := by
  cases fuel with
  | zero => rfl
  | succ g =>
    conv_lhs => rw [parseVal]
    conv_rhs => rw [parseVal]
    rw [skipWs_cons_space]

theorem parseItems_cons_space (fuel : Nat) (X : List Char) :
    parseItems fuel (' ' :: X) = parseItems fuel X := by
  cases fuel with
  | zero => rfl
  | succ g =>
    conv_lhs => rw [parseItems]
    conv_rhs => rw [parseItems]
    rw [parseVal_cons_space]

theorem parseMembers_cons_space (fuel : Nat) (X : List Char) :
    parseMembers fuel (' ' :: X) = parseMembers fuel X := by
  cases fuel with
  | zero => rfl
  | succ g =>
    conv_lhs => rw [parseMembers]
    conv_rhs => rw [parseMembers]
    rw [skipWs_cons_space]


/-! ### The value round trip -/

mutual

/-- Parsing the serialization of a value, followed by any non-digit-headed
remainder, recovers the value. -/
theorem parseVal_dumps : ∀ (v : JValue) (fuel : Nat) (rest : List Char),
    jweight v <= fuel → noDigitHead rest = true →
    parseVal fuel (dumps v ++ rest) = some (v, rest)
  | .jnull, fuel, rest => by
    intro hw hr
    obtain ⟨f, rfl⟩ : ∃ f, fuel = f + 1 :=
      ⟨fuel - 1, by have := jweight_pos JValue.jnull; omega⟩
    rw [show dumps JValue.jnull ++ rest = 'n' :: ("ull".toList ++ rest) from rfl]
    rw [valStep_null, expectChars_append]
    rfl
  | .jbool true, fuel, rest => by
    intro hw hr
    obtain ⟨f, rfl⟩ : ∃ f, fuel = f + 1 :=
      ⟨fuel - 1, by have := jweight_pos (JValue.jbool true); omega⟩
    rw [show dumps (JValue.jbool true) ++ rest = 't' :: ("rue".toList ++ rest) from rfl]
    rw [valStep_true, expectChars_append]
    rfl
  | .jbool false, fuel, rest => by
    intro hw hr
    obtain ⟨f, rfl⟩ : ∃ f, fuel = f + 1 :=
      ⟨fuel - 1, by have := jweight_pos (JValue.jbool false); omega⟩
    rw [show dumps (JValue.jbool false) ++ rest = 'f' :: ("alse".toList ++ rest) from rfl]
    rw [valStep_false, expectChars_append]
    rfl
  | .jint n, fuel, rest => by
    intro hw hr
    obtain ⟨f, rfl⟩ : ∃ f, fuel = f + 1 :=
      ⟨fuel - 1, by have := jweight_pos (JValue.jint n); omega⟩
    by_cases hneg : n < 0
    · rw [show dumps (JValue.jint n) ++ rest = '-' :: (natChars n.natAbs ++ rest) by
        simp [dumps, intChars, hneg]]
      rw [valStep_neg, parseNat_natChars _ rest hr]
      have habs : -(n.natAbs : Int) = n := by omega
      simp only [Option.map_some']
      rw [habs]
    · cases hnc : natChars n.toNat with
      | nil => exact absurd hnc (natChars_ne_nil n.toNat)
      | cons c ds =>
        have hb := natChars_digits n.toNat c (by rw [hnc]; exact List.mem_cons_self c ds)
        have hsome : (digitVal c).isSome = true := by simp [digitVal, hb]
        rw [show dumps (JValue.jint n) ++ rest = c :: (ds ++ rest) by
          simp [dumps, intChars, hneg, hnc]]
        rw [valStep_digit f c _ hsome]
        rw [show c :: (ds ++ rest) = natChars n.toNat ++ rest by rw [hnc]; simp]
        rw [parseNat_natChars _ rest hr]
        have htn : (n.toNat : Int) = n := by omega
        simp only [Option.map_some']
        rw [htn]
  | .jstr s, fuel, rest => by
    intro hw hr
    obtain ⟨f, rfl⟩ : ∃ f, fuel = f + 1 :=
      ⟨fuel - 1, by have := jweight_pos (JValue.jstr s); omega⟩
    rw [show dumps (JValue.jstr s) ++ rest = '"' :: (escStr s ++ '"' :: rest) by
      simp [dumps]]
    rw [valStep_str, parseStringBody_escStr]
    rfl
  | .jarr [], fuel, rest => by
    intro hw hr
    obtain ⟨f, rfl⟩ : ∃ f, fuel = f + 1 :=
      ⟨fuel - 1, by have := jweight_pos (JValue.jarr []); omega⟩
    rw [show dumps (JValue.jarr []) ++ rest = '[' :: (']' :: rest) by simp [dumps, dumpsArr]]
    rw [valStep_arr, skipWs_not_ws (by decide : isWsChar ']' = false)]
    rfl
  | .jarr (e :: es), fuel, rest => by
    intro hw hr
    obtain ⟨f, rfl⟩ : ∃ f, fuel = f + 1 :=
      ⟨fuel - 1, by have := jweight_pos (JValue.jarr (e :: es)); omega⟩
    obtain ⟨t, ht⟩ := dumpsArr_cons e es
    obtain ⟨c, cs, hd, hws, hnb⟩ := dumps_head e
    rw [show dumps (JValue.jarr (e :: es)) ++ rest =
        '[' :: (c :: (cs ++ (t ++ (']' :: rest)))) by simp [dumps, ht, hd]]
    rw [valStep_arr, skipWs_not_ws hws]
    have hback : c :: (cs ++ (t ++ (']' :: rest))) = dumpsArr (e :: es) ++ ']' :: rest := by
      simp [ht, hd]
    split
    · rename_i r2 heq
      injection heq with h1 _
      exact absurd h1 hnb
    · rw [hback, parseItems_dumps (e :: es) (by simp) f rest (by
        have : jweight (JValue.jarr (e :: es)) = 1 + jweightArr (e :: es) := rfl
        omega)]
      rfl
  | .jobj [], fuel, rest => by
    intro hw hr
    obtain ⟨f, rfl⟩ : ∃ f, fuel = f + 1 :=
      ⟨fuel - 1, by have := jweight_pos (JValue.jobj []); omega⟩
    rw [show dumps (JValue.jobj []) ++ rest = '\x7b' :: ('\x7d' :: rest) by
      simp [dumps, dumpsObj]]
    rw [valStep_obj, skipWs_not_ws (by decide : isWsChar '\x7d' = false)]
    rfl
  | .jobj ((k, v) :: fs), fuel, rest => by
    intro hw hr
    obtain ⟨f, rfl⟩ : ∃ f, fuel = f + 1 :=
      ⟨fuel - 1, by have := jweight_pos (JValue.jobj ((k, v) :: fs)); omega⟩
    obtain ⟨t, ht⟩ := dumpsObj_cons k v fs
    rw [show dumps (JValue.jobj ((k, v) :: fs)) ++ rest =
        '\x7b' :: ('"' :: ((escStr k ++ ('"' :: (':' :: (' ' :: (dumps v ++ t))))) ++
          ('\x7d' :: rest))) by simp [dumps, ht]]
    rw [valStep_obj, skipWs_not_ws (by decide : isWsChar '"' = false)]
    have hback : '"' :: ((escStr k ++ ('"' :: (':' :: (' ' :: (dumps v ++ t))))) ++
        ('\x7d' :: rest)) = dumpsObj ((k, v) :: fs) ++ '\x7d' :: rest := by
      simp [ht]
    split
    · rename_i r2 heq
      injection heq with h1 _
      exact absurd h1 (by decide)
    · rw [hback, parseMembers_dumps ((k, v) :: fs) (by simp) f rest (by
        have : jweight (JValue.jobj ((k, v) :: fs)) = 1 + jweightObj ((k, v) :: fs) := rfl
        omega)]
      rfl

/-- Parsing the serialized items of a non-empty array up to `]` recovers the
item list. -/
theorem parseItems_dumps : ∀ (es : List JValue), es ≠ [] → ∀ (fuel : Nat) (rest : List Char),
    jweightArr es <= fuel → parseItems fuel (dumpsArr es ++ ']' :: rest) = some (es, rest)
  | [], hne, _, _ => absurd rfl hne
  | [e], _, fuel, rest => by
    intro hw
    simp only [jweightArr, jweight] at hw
    obtain ⟨g, rfl⟩ : ∃ g, fuel = g + 1 := ⟨fuel - 1, by omega⟩
    rw [show dumpsArr [e] ++ ']' :: rest = dumps e ++ (']' :: rest) by simp [dumpsArr]]
    conv_lhs => rw [parseItems]
    simp only [parseVal_dumps e g (']' :: rest) (by omega) rfl]
    simp only [skipWs_not_ws (by decide : isWsChar ']' = false)]
  | e :: e' :: es, _, fuel, rest => by
    intro hw
    simp only [jweightArr, jweight] at hw
    obtain ⟨g, rfl⟩ : ∃ g, fuel = g + 1 := ⟨fuel - 1, by omega⟩
    rw [show dumpsArr (e :: e' :: es) ++ ']' :: rest =
        dumps e ++ (',' :: (' ' :: (dumpsArr (e' :: es) ++ ']' :: rest))) by
      simp [dumpsArr]]
    conv_lhs => rw [parseItems]
    simp only [parseVal_dumps e g (',' :: (' ' :: (dumpsArr (e' :: es) ++ ']' :: rest)))
      (by omega) rfl]
    simp only [skipWs_not_ws (by decide : isWsChar ',' = false)]
    rw [parseItems_cons_space]
    rw [parseItems_dumps (e' :: es) (by simp) g rest (by simp only [jweightArr]; omega)]
    rfl

/-- Parsing the serialized members of a non-empty object up to the closing
brace recovers the member list. -/
theorem parseMembers_dumps :
    ∀ (fs : List (List Char × JValue)), fs ≠ [] → ∀ (fuel : Nat) (rest : List Char),
    jweightObj fs <= fuel →
    parseMembers fuel (dumpsObj fs ++ '\x7d' :: rest) = some (fs, rest)
  | [], hne, _, _ => absurd rfl hne
  | [(k, v)], _, fuel, rest => by
    intro hw
    simp only [jweightObj, jweight] at hw
    obtain ⟨g, rfl⟩ : ∃ g, fuel = g + 1 := ⟨fuel - 1, by omega⟩
    rw [show dumpsObj [(k, v)] ++ '\x7d' :: rest =
        '"' :: (escStr k ++ ('"' :: (':' :: (' ' :: (dumps v ++ ('\x7d' :: rest)))))) by
      simp [dumpsObj]]
    conv_lhs => rw [parseMembers]
    simp only [skipWs_not_ws (by decide : isWsChar '"' = false)]
    simp only [parseStringBody_escStr k _]
    simp only [skipWs_not_ws (by decide : isWsChar ':' = false)]
    rw [parseVal_cons_space]
    simp only [parseVal_dumps v g ('\x7d' :: rest) (by omega) rfl]
    simp only [skipWs_not_ws (by decide : isWsChar '\x7d' = false)]
  | (k, v) :: f' :: fs, _, fuel, rest => by
    intro hw
    simp only [jweightObj, jweight] at hw
    obtain ⟨g, rfl⟩ : ∃ g, fuel = g + 1 := ⟨fuel - 1, by omega⟩
    rw [show dumpsObj ((k, v) :: f' :: fs) ++ '\x7d' :: rest =
        '"' :: (escStr k ++ ('"' :: (':' :: (' ' :: (dumps v ++
          (',' :: (' ' :: (dumpsObj (f' :: fs) ++ '\x7d' :: rest)))))))) by
      simp [dumpsObj]]
    conv_lhs => rw [parseMembers]
    simp only [skipWs_not_ws (by decide : isWsChar '"' = false)]
    simp only [parseStringBody_escStr k _]
    simp only [skipWs_not_ws (by decide : isWsChar ':' = false)]
    rw [parseVal_cons_space]
    simp only [parseVal_dumps v g
      (',' :: (' ' :: (dumpsObj (f' :: fs) ++ '\x7d' :: rest))) (by omega) rfl]
    simp only [skipWs_not_ws (by decide : isWsChar ',' = false)]
    rw [parseMembers_cons_space]
    rw [parseMembers_dumps (f' :: fs) (by simp) g rest (by simp only [jweightObj]; omega)]
    rfl

end


mutual

/-- The fuel measure is bounded by the serialized length. -/
theorem jweight_le_length : ∀ v : JValue, jweight v <= (dumps v).length
  | .jnull => by simp [jweight, dumps]
  | .jbool true => by simp [jweight, dumps]
  | .jbool false => by simp [jweight, dumps]
  | .jint n => by
    have h := natChars_ne_nil n.toNat
    have h2 := natChars_ne_nil n.natAbs
    simp only [jweight, dumps, intChars]
    by_cases hneg : n < 0
    · simp [hneg]
    · simp only [hneg, if_false]
      cases hnc : natChars n.toNat with
      | nil => exact absurd hnc h
      | cons c ds => simp
  | .jstr s => by simp [jweight, dumps]
  | .jarr es => by
    have h := jweightArr_le_length es
    cases es with
    | nil => simp [jweight, jweightArr, dumps, dumpsArr]
    | cons e es' =>
      simp only [jweight, dumps, List.length_cons, List.length_append,
        List.length_singleton]
      omega
  | .jobj fs => by
    have h := jweightObj_le_length fs
    cases fs with
    | nil => simp [jweight, jweightObj, dumps, dumpsObj]
    | cons f fs' =>
      simp only [jweight, dumps, List.length_cons, List.length_append,
        List.length_singleton]
      omega

theorem jweightArr_le_length : ∀ es : List JValue, jweightArr es <= (dumpsArr es).length + 1
  | [] => by simp [jweightArr, dumpsArr]
  | [e] => by
    have h := jweight_le_length e
    simp only [jweightArr, dumpsArr]
    omega
  | e :: e' :: es => by
    have h1 := jweight_le_length e
    have h2 := jweightArr_le_length (e' :: es)
    simp only [jweightArr] at h2 ⊢
    simp only [dumpsArr, List.length_append, List.length_cons]
    omega

theorem jweightObj_le_length :
    ∀ fs : List (List Char × JValue), jweightObj fs <= (dumpsObj fs).length + 1
  | [] => by simp [jweightObj, dumpsObj]
  | [(k, v)] => by
    have h := jweight_le_length v
    simp only [jweightObj, dumpsObj, List.length_cons, List.length_append]
    omega
  | (k, v) :: f' :: fs => by
    have h1 := jweight_le_length v
    have h2 := jweightObj_le_length (f' :: fs)
    simp only [jweightObj] at h2 ⊢
    simp only [dumpsObj, List.length_cons, List.length_append]
    omega

end

/-- The embedding of `json.loads(json.dumps(v)) == v`. -/
theorem loads_dumps (v : JValue) : loads (dumps v) = some v := by
  have h1 : parseVal ((dumps v).length + 1) (dumps v) = some (v, []) := by
    have h := parseVal_dumps v ((dumps v).length + 1) []
      (by have := jweight_le_length v; omega) rfl
    simpa using h
  simp only [loads, h1]
  rfl


/-! ### Substitution commutes with serialization

`get_databases` substitutes into the *serialized* template.  The placeholder
token consists of capital letters and underscores, characters that occur in a
`json.dumps` output only verbatim inside string literals.  The lemmas below
make that precise and let the textual substitution be read back structurally.
-/

/-- Characters that can occur in the placeholder token: capital ASCII letters
and the underscore. -/
def PhChar (c : Char) : Prop := (65 <= c.toNat ∧ c.toNat <= 90) ∨ c.toNat = 95

/-- Printable ASCII characters that `json.dumps` emits verbatim inside a
string literal (everything from space to tilde except quote and backslash). -/
def PlainChar (c : Char) : Prop :=
  32 <= c.toNat ∧ c.toNat <= 126 ∧ ¬c.toNat = 34 ∧ ¬c.toNat = 92

instance (c : Char) : Decidable (PhChar c) := by unfold PhChar; infer_instance

instance (c : Char) : Decidable (PlainChar c) := by unfold PlainChar; infer_instance

theorem char_eq_of_toNat_eq {c d : Char} (h : c.toNat = d.toNat) : c = d := by
  rw [← Char.ofNat_toNat c, ← Char.ofNat_toNat d, h]

theorem PhChar.plain {c : Char} (h : PhChar c) : PlainChar c := by
  rcases h with ⟨h1, h2⟩ | h1 <;> exact ⟨by omega, by omega, by omega, by omega⟩

theorem escapeChar_plain {c : Char} (h : PlainChar c) : escapeChar c = [c] := by
  have h' : 32 <= c.toNat ∧ c.toNat <= 126 ∧ ¬c.toNat = 34 ∧ ¬c.toNat = 92 := h
  simp [escapeChar, h']

theorem escStr_plain : ∀ s : List Char, (∀ c ∈ s, PlainChar c) → escStr s = s := by
  intro s
  induction s with
  | nil => intro _; rfl
  | cons c cs ih =>
    intro h
    simp only [escStr, escapeChar_plain (h c (List.mem_cons_self c cs)),
      ih (fun x hx => h x (List.mem_cons_of_mem c hx)), List.cons_append, List.nil_append]

theorem hexDigitCh_not_Ph (k : Nat) (hk : k < 16) : ¬PhChar (hexDigitCh k) := by
  interval_cases k <;> decide

set_option maxRecDepth 2000 in
/-- Every character either escapes to itself (printable, unescaped) or to a
backslash sequence containing no placeholder characters. -/
theorem escapeChar_cases (c : Char) :
    (escapeChar c = [c] ∧ PlainChar c) ∨
      ((∃ tl, escapeChar c = '\\' :: tl) ∧ ∀ d ∈ escapeChar c, ¬PhChar d) := by
  by_cases h0 : PlainChar c
  · exact Or.inl ⟨escapeChar_plain h0, h0⟩
  right
  have h0' : ¬(32 <= c.toNat ∧ c.toNat <= 126 ∧ ¬c.toNat = 34 ∧ ¬c.toNat = 92) := h0
  by_cases h1 : c.toNat = 34
  · have hc : c = Char.ofNat 34 := by rw [← Char.ofNat_toNat c, h1]
    subst hc
    exact ⟨⟨_, rfl⟩, by decide⟩
  by_cases h2 : c.toNat = 92
  · have hc : c = Char.ofNat 92 := by rw [← Char.ofNat_toNat c, h2]
    subst hc
    exact ⟨⟨_, rfl⟩, by decide⟩
  by_cases h3 : c.toNat = 10
  · have hc : c = Char.ofNat 10 := by rw [← Char.ofNat_toNat c, h3]
    subst hc
    exact ⟨⟨_, rfl⟩, by decide⟩
  by_cases h4 : c.toNat = 9
  · have hc : c = Char.ofNat 9 := by rw [← Char.ofNat_toNat c, h4]
    subst hc
    exact ⟨⟨_, rfl⟩, by decide⟩
  by_cases h5 : c.toNat = 13
  · have hc : c = Char.ofNat 13 := by rw [← Char.ofNat_toNat c, h5]
    subst hc
    exact ⟨⟨_, rfl⟩, by decide⟩
  by_cases h6 : c.toNat = 8
  · have hc : c = Char.ofNat 8 := by rw [← Char.ofNat_toNat c, h6]
    subst hc
    exact ⟨⟨_, rfl⟩, by decide⟩
  by_cases h7 : c.toNat = 12
  · have hc : c = Char.ofNat 12 := by rw [← Char.ofNat_toNat c, h7]
    subst hc
    exact ⟨⟨_, rfl⟩, by decide⟩
  by_cases h8 : c.toNat < 32
  · have he : escapeChar c = '\\' :: ('u' :: toHex4 c.toNat) := by
      simp only [escapeChar, if_neg h0', if_neg h1, if_neg h2, if_neg h3, if_neg h4,
        if_neg h5, if_neg h6, if_neg h7, if_pos h8]
    refine ⟨⟨_, he⟩, ?_⟩
    rw [he]
    intro d hd
    simp only [toHex4, List.mem_cons, List.not_mem_nil, or_false] at hd
    have hbs : ¬PhChar '\\' := by decide
    have hu : ¬PhChar 'u' := by decide
    have key : ∀ x : Nat, ¬PhChar (hexDigitCh (x % 16)) :=
      fun x => hexDigitCh_not_Ph _ (Nat.mod_lt _ (by omega))
    rcases hd with h | h | h | h | h | h
    · exact h ▸ hbs
    · exact h ▸ hu
    · exact h ▸ key _
    · exact h ▸ key _
    · exact h ▸ key _
    · exact h ▸ key _
  by_cases h10 : c.toNat < 65536
  · have he : escapeChar c = '\\' :: ('u' :: toHex4 c.toNat) := by
      simp only [escapeChar, if_neg h0', if_neg h1, if_neg h2, if_neg h3, if_neg h4,
        if_neg h5, if_neg h6, if_neg h7, if_neg h8, if_pos h10]
    refine ⟨⟨_, he⟩, ?_⟩
    rw [he]
    intro d hd
    simp only [toHex4, List.mem_cons, List.not_mem_nil, or_false] at hd
    have hbs : ¬PhChar '\\' := by decide
    have hu : ¬PhChar 'u' := by decide
    have key : ∀ x : Nat, ¬PhChar (hexDigitCh (x % 16)) :=
      fun x => hexDigitCh_not_Ph _ (Nat.mod_lt _ (by omega))
    rcases hd with h | h | h | h | h | h
    · exact h ▸ hbs
    · exact h ▸ hu
    · exact h ▸ key _
    · exact h ▸ key _
    · exact h ▸ key _
    · exact h ▸ key _
  · have he : escapeChar c = '\\' ::
        ('u' :: (toHex4 (55296 + (c.toNat - 65536) / 1024) ++
          ('\\' :: ('u' :: toHex4 (56320 + (c.toNat - 65536) % 1024))))) := by
      simp only [escapeChar, if_neg h0', if_neg h1, if_neg h2, if_neg h3, if_neg h4,
        if_neg h5, if_neg h6, if_neg h7, if_neg h8, if_neg h10]
      simp
    refine ⟨⟨_, he⟩, ?_⟩
    rw [he]
    intro d hd
    simp only [toHex4, List.cons_append, List.nil_append, List.mem_cons,
      List.not_mem_nil, or_false] at hd
    have hbs : ¬PhChar '\\' := by decide
    have hu : ¬PhChar 'u' := by decide
    have key : ∀ x : Nat, ¬PhChar (hexDigitCh (x % 16)) :=
      fun x => hexDigitCh_not_Ph _ (Nat.mod_lt _ (by omega))
    rcases hd with h | h | h | h | h | h | h | h | h | h | h | h
    · exact h ▸ hbs
    · exact h ▸ hu
    · exact h ▸ key _
    · exact h ▸ key _
    · exact h ▸ key _
    · exact h ▸ key _
    · exact h ▸ hbs
    · exact h ▸ hu
    · exact h ▸ key _
    · exact h ▸ key _
    · exact h ▸ key _
    · exact h ▸ key _

/-! ### Step laws for the replacement scan -/

theorem replaceAux_fuel (ph rep : List Char) (hph : ph ≠ []) :
    ∀ fuel₁ fuel₂ s, s.length <= fuel₁ → s.length <= fuel₂ →
      replaceAux ph rep fuel₁ s = replaceAux ph rep fuel₂ s := by
  intro fuel₁
  induction fuel₁ with
  | zero =>
    intro fuel₂ s h1 h2
    rw [Nat.le_zero, List.length_eq_zero] at h1
    subst h1
    cases fuel₂ with
    | zero => rfl
    | succ m => rfl
  | succ n ih =>
    intro fuel₂ s h1 h2
    cases s with
    | nil =>
      cases fuel₂ with
      | zero => rfl
      | succ m => rfl
    | cons c cs =>
      cases fuel₂ with
      | zero => simp at h2
      | succ m =>
        have hple : 1 <= ph.length := by
          cases ph with | nil => simp at hph | cons a l => simp
        simp only [replaceAux]
        by_cases hpre : ph.isPrefixOf (c :: cs) = true
        · simp only [hpre, if_true]
          have hlen := length_le_of_isPrefixOf hpre
          have hd : ((c :: cs).drop ph.length).length <= n := by
            simp only [List.length_drop, List.length_cons] at *
            omega
          have hd2 : ((c :: cs).drop ph.length).length <= m := by
            simp only [List.length_drop, List.length_cons] at *
            omega
          rw [ih m _ hd hd2]
        · simp only [hpre]
          simp only [Bool.false_eq_true, if_false]
          have hc : cs.length <= n := by simp at h1; omega
          have hc2 : cs.length <= m := by simp at h2; omega
          rw [ih m cs hc hc2]

theorem pyReplace_nil (ph rep : List Char) : pyReplace [] ph rep = [] := by
  by_cases h : ph.isEmpty <;> simp [pyReplace, h, replaceAux]

theorem pyReplace_cons_match {s ph : List Char} (rep : List Char) (hph : ph ≠ [])
    (hpre : ph.isPrefixOf s = true) :
    pyReplace s ph rep = rep ++ pyReplace (s.drop ph.length) ph rep := by
  have hemp : ph.isEmpty = false := by cases ph with | nil => simp at hph | cons a l => rfl
  have hple : 1 <= ph.length := by cases ph with | nil => simp at hph | cons a l => simp
  cases s with
  | nil =>
    cases ph with
    | nil => simp at hph
    | cons p ps => simp [List.isPrefixOf] at hpre
  | cons c cs =>
    simp only [pyReplace, hemp, Bool.false_eq_true, if_false, List.length_cons, replaceAux,
      hpre, if_true]
    have hlen := length_le_of_isPrefixOf hpre
    simp only [List.length_cons] at hlen
    congr 1
    apply replaceAux_fuel ph rep hph
    · simp only [List.length_drop, List.length_cons]
      omega
    · simp only [List.length_drop, List.length_cons]
      omega

theorem pyReplace_cons_nomatch {c : Char} {cs ph : List Char} (rep : List Char)
    (hpre : ph.isPrefixOf (c :: cs) = false) :
    pyReplace (c :: cs) ph rep = c :: pyReplace cs ph rep := by
  have hph : ph ≠ [] := by
    intro h
    subst h
    simp [List.isPrefixOf] at hpre
  have hemp : ph.isEmpty = false := by cases ph with | nil => simp at hph | cons a l => rfl
  simp only [pyReplace, hemp, Bool.false_eq_true, if_false, List.length_cons, replaceAux,
    hpre]


theorem isPrefixOf_false_of_head {p c : Char} (hp : PhChar p) (hc : ¬PhChar c)
    (ph' z : List Char) : (p :: ph').isPrefixOf (c :: z) = false := by
  have hne : (p == c) = false := by
    by_contra hbe
    rw [Bool.not_eq_false, beq_iff_eq] at hbe
    exact hc (hbe ▸ hp)
  simp [List.isPrefixOf, hne]

theorem isPrefixOf_mono_append {a b : List Char} (z : List Char)
    (h : a.isPrefixOf b = true) : a.isPrefixOf (b ++ z) = true := by
  obtain ⟨t, rfl⟩ := isPrefixOf_iff_append.1 h
  exact isPrefixOf_iff_append.2 ⟨t ++ z, by simp⟩

theorem isPrefixOf_of_append_le {a b z : List Char} (h : a.isPrefixOf (b ++ z) = true)
    (hle : a.length <= b.length) : a.isPrefixOf b = true := by
  obtain ⟨t, ht⟩ := isPrefixOf_iff_append.1 h
  refine isPrefixOf_iff_append.2 ⟨b.drop a.length, ?_⟩
  have h1 : (a ++ t).take a.length = a := by simp
  rw [ht, List.take_append_of_le_length hle] at h1
  conv_rhs => rw [← List.take_append_drop a.length b]
  rw [h1]

/-- Scanning over a block of non-placeholder characters leaves it unchanged
and continues on the remainder. -/
theorem pyReplace_nonPh_block (ph rep : List Char) (hph : ph ≠ [])
    (hPh : ∀ c ∈ ph, PhChar c) :
    ∀ m y, (∀ c ∈ m, ¬PhChar c) → pyReplace (m ++ y) ph rep = m ++ pyReplace y ph rep := by
  intro m
  induction m with
  | nil => intro y _; simp
  | cons c m' ih =>
    intro y hm
    obtain ⟨p, ph', rfl⟩ : ∃ p ph', ph = p :: ph' := by
      cases ph with
      | nil => simp at hph
      | cons p ph' => exact ⟨p, ph', rfl⟩
    have hfalse := isPrefixOf_false_of_head (hPh p (List.mem_cons_self p ph'))
      (hm c (List.mem_cons_self c m')) ph' (m' ++ y)
    rw [List.cons_append, pyReplace_cons_nomatch rep hfalse,
      ih y (fun x hx => hm x (List.mem_cons_of_mem c hx))]
    simp

/-- A placeholder occurrence cannot straddle into a non-placeholder
separator block. -/
theorem ph_le_of_isPrefixOf_sep {ph x m y : List Char} (hPh : ∀ c ∈ ph, PhChar c)
    (hm₁ : m ≠ []) (hm₂ : ∀ c ∈ m, ¬PhChar c)
    (h : ph.isPrefixOf (x ++ (m ++ y)) = true) : ph.length <= x.length := by
  by_contra hlt
  push_neg at hlt
  obtain ⟨t, ht⟩ := isPrefixOf_iff_append.1 h
  have h1 : ph.drop x.length ++ t = m ++ y := by
    have h2 := congrArg (List.drop x.length) ht
    rwa [List.drop_append_of_le_length (by omega), List.drop_left] at h2
  cases hd : ph.drop x.length with
  | nil =>
    have : ph.length <= x.length := by
      have := congrArg List.length hd
      simp at this
      omega
    omega
  | cons q qs =>
    have hq : q ∈ ph := List.drop_subset x.length ph (by rw [hd]; exact List.mem_cons_self q qs)
    cases m with
    | nil => simp at hm₁
    | cons mh mt =>
      rw [hd] at h1
      simp only [List.cons_append, List.cons.injEq] at h1
      exact absurd (h1.1 ▸ hPh q hq) (hm₂ mh (List.mem_cons_self mh mt))

/-- The scan distributes over a non-placeholder separator block. -/
theorem pyReplace_append_sep (ph rep : List Char) (hph : ph ≠ [])
    (hPh : ∀ c ∈ ph, PhChar c) (m : List Char) (hm₁ : m ≠ [])
    (hm₂ : ∀ c ∈ m, ¬PhChar c) :
    ∀ n x y, x.length <= n →
      pyReplace (x ++ (m ++ y)) ph rep =
        pyReplace x ph rep ++ (m ++ pyReplace y ph rep) := by
  intro n
  induction n with
  | zero =>
    intro x y hx
    rw [Nat.le_zero, List.length_eq_zero] at hx
    subst hx
    rw [List.nil_append, pyReplace_nil, List.nil_append,
      pyReplace_nonPh_block ph rep hph hPh m y hm₂]
  | succ k ih =>
    intro x y hx
    cases x with
    | nil =>
      rw [List.nil_append, pyReplace_nil, List.nil_append,
        pyReplace_nonPh_block ph rep hph hPh m y hm₂]
    | cons c x' =>
      have hple : 1 <= ph.length := by
        cases ph with | nil => simp at hph | cons a l => simp
      rw [List.cons_append]
      by_cases hpre : ph.isPrefixOf (c :: (x' ++ (m ++ y))) = true
      · have hsep : ph.isPrefixOf ((c :: x') ++ (m ++ y)) = true := by
          rwa [List.cons_append]
        have hle := ph_le_of_isPrefixOf_sep hPh hm₁ hm₂ hsep
        have hpx : ph.isPrefixOf (c :: x') = true := isPrefixOf_of_append_le hsep hle
        rw [pyReplace_cons_match rep hph hpre, pyReplace_cons_match rep hph hpx]
        have hdrop : (c :: (x' ++ (m ++ y))).drop ph.length =
            ((c :: x').drop ph.length) ++ (m ++ y) := by
          rw [← List.cons_append, List.drop_append_of_le_length hle]
        rw [hdrop, ih ((c :: x').drop ph.length) y (by
          simp only [List.length_drop, List.length_cons] at *
          omega)]
        simp
      · have hpx : ph.isPrefixOf (c :: x') = false := by
          by_contra hcon
          rw [Bool.not_eq_false] at hcon
          have := isPrefixOf_mono_append (m ++ y) hcon
          rw [List.cons_append] at this
          exact absurd this (by simp [hpre])
        rw [pyReplace_cons_nomatch rep (by simp [hpre]), pyReplace_cons_nomatch rep hpx]
        rw [ih x' y (by simp at hx; omega)]
        simp

theorem escStr_append : ∀ a b : List Char, escStr (a ++ b) = escStr a ++ escStr b := by
  intro a b
  induction a with
  | nil => rfl
  | cons c cs ih => simp [escStr, ih]

/-- The placeholder occurs in an escaped string body exactly where it occurs
in the raw string. -/
theorem isPrefixOf_escStr :
    ∀ ph : List Char, (∀ c ∈ ph, PhChar c) →
      ∀ s, ph.isPrefixOf (escStr s) = ph.isPrefixOf s := by
  intro ph
  induction ph with
  | nil => intro _ s; simp [List.isPrefixOf]
  | cons p ph' ih =>
    intro hPh s
    have hp : PhChar p := hPh p (List.mem_cons_self p ph')
    cases s with
    | nil => rfl
    | cons c cs =>
      rcases escapeChar_cases c with ⟨he, hplain⟩ | ⟨⟨tl, he⟩, hnone⟩
      · rw [show escStr (c :: cs) = c :: escStr cs by simp [escStr, he]]
        simp only [List.isPrefixOf, ih (fun x hx => hPh x (List.mem_cons_of_mem p hx)) cs]
      · rw [show escStr (c :: cs) = '\\' :: (tl ++ escStr cs) by simp [escStr, he]]
        have hp1 : (p == '\\') = false := by
          by_contra hbe
          rw [Bool.not_eq_false, beq_iff_eq] at hbe
          exact absurd (hbe ▸ hp) (by decide)
        have hp2 : (p == c) = false := by
          by_contra hbe
          rw [Bool.not_eq_false, beq_iff_eq] at hbe
          subst hbe
          rw [escapeChar_plain hp.plain] at he
          simp only [List.cons.injEq] at he
          exact absurd (he.1 ▸ hp) (by decide)
        simp [List.isPrefixOf, hp1, hp2]

/-- The scan commutes with string-body escaping: substituting in the escaped
body is escaping the substituted raw string. -/
theorem pyReplace_escStr (ph rep : List Char) (hph : ph ≠ [])
    (hPh : ∀ c ∈ ph, PhChar c) (hrep : ∀ c ∈ rep, PlainChar c) :
    ∀ n s, s.length <= n →
      pyReplace (escStr s) ph rep = escStr (pyReplace s ph rep) := by
  intro n
  induction n with
  | zero =>
    intro s hs
    rw [Nat.le_zero, List.length_eq_zero] at hs
    subst hs
    rw [show escStr [] = [] from rfl, pyReplace_nil]
    rfl
  | succ k ih =>
    intro s hs
    cases s with
    | nil =>
      rw [show escStr [] = [] from rfl, pyReplace_nil]
      rfl
    | cons c cs =>
      have hple : 1 <= ph.length := by
        cases ph with | nil => simp at hph | cons a l => simp
      by_cases hpre : ph.isPrefixOf (c :: cs) = true
      · obtain ⟨t, ht⟩ := isPrefixOf_iff_append.1 hpre
        rw [← ht, escStr_append, escStr_plain ph (fun x hx => (hPh x hx).plain)]
        have hm1 : ph.isPrefixOf (ph ++ escStr t) = true := isPrefixOf_append_self ph _
        have hm2 : ph.isPrefixOf (ph ++ t) = true := isPrefixOf_append_self ph t
        rw [pyReplace_cons_match rep hph hm1, pyReplace_cons_match rep hph hm2,
          List.drop_left, List.drop_left]
        have hlt : t.length <= k := by
          have h2 := congrArg List.length ht
          simp only [List.length_append, List.length_cons] at h2 hs
          omega
        rw [ih t hlt, escStr_append, escStr_plain rep hrep]
      · rcases escapeChar_cases c with ⟨he, hplain⟩ | ⟨⟨tl, he⟩, hnone⟩
        · rw [show escStr (c :: cs) = c :: escStr cs by simp [escStr, he]]
          have hfalse : ph.isPrefixOf (c :: escStr cs) = false := by
            have h1 := isPrefixOf_escStr ph hPh (c :: cs)
            rw [show escStr (c :: cs) = c :: escStr cs by simp [escStr, he]] at h1
            rw [h1]
            simp [hpre]
          rw [pyReplace_cons_nomatch rep hfalse, pyReplace_cons_nomatch rep (by simp [hpre]),
            ih cs (by simp at hs; omega)]
          rw [show escStr (c :: pyReplace cs ph rep) =
            escapeChar c ++ escStr (pyReplace cs ph rep) from rfl, he]
          rfl
        · rw [show escStr (c :: cs) = escapeChar c ++ escStr cs by simp [escStr]]
          rw [pyReplace_nonPh_block ph rep hph hPh (escapeChar c) (escStr cs)
            (fun x hx => hnone x hx)]
          rw [ih cs (by simp at hs; omega), pyReplace_cons_nomatch rep (by simp [hpre])]
          rw [show escStr (c :: pyReplace cs ph rep) =
            escapeChar c ++ escStr (pyReplace cs ph rep) from rfl]


theorem pyReplace_nonPh_all (ph rep : List Char) (hph : ph ≠ [])
    (hPh : ∀ c ∈ ph, PhChar c) (m : List Char) (hm : ∀ c ∈ m, ¬PhChar c) :
    pyReplace m ph rep = m := by
  have h := pyReplace_nonPh_block ph rep hph hPh m [] hm
  rwa [List.append_nil, pyReplace_nil, List.append_nil] at h

theorem null_nonPh : ∀ c ∈ "null".toList, ¬PhChar c := by decide

theorem true_nonPh : ∀ c ∈ "true".toList, ¬PhChar c := by decide

theorem false_nonPh : ∀ c ∈ "false".toList, ¬PhChar c := by decide

theorem intChars_nonPh (n : Int) : ∀ c ∈ intChars n, ¬PhChar c := by
  intro c hc
  rw [intChars] at hc
  by_cases h : n < 0
  · rw [if_pos h] at hc
    rcases List.mem_cons.1 hc with rfl | hm
    · decide
    · have hd := natChars_digits _ c hm
      intro hp
      have hp' : (65 <= c.toNat ∧ c.toNat <= 90) ∨ c.toNat = 95 := hp
      rcases hp' with ⟨h1, h2⟩ | h3 <;> omega
  · rw [if_neg h] at hc
    have hd := natChars_digits _ c hc
    intro hp
    have hp' : (65 <= c.toNat ∧ c.toNat <= 90) ∨ c.toNat = 95 := hp
    rcases hp' with ⟨h1, h2⟩ | h3 <;> omega

mutual

/-- Apply the scan to every string literal of a JSON value, object keys
included: this is what a textual `str.replace` on the serialized form does
when the replacement stays inside string literals. -/
def substPh (ph rep : List Char) : JValue → JValue
  | .jnull => .jnull
  | .jbool b => .jbool b
  | .jint n => .jint n
  | .jstr s => .jstr (pyReplace s ph rep)
  | .jarr es => .jarr (substPhArr ph rep es)
  | .jobj fs => .jobj (substPhObj ph rep fs)

/-- `substPh` mapped over array elements. -/
def substPhArr (ph rep : List Char) : List JValue → List JValue
  | [] => []
  | e :: es => substPh ph rep e :: substPhArr ph rep es

/-- `substPh` mapped over object members, keys included. -/
def substPhObj (ph rep : List Char) : List (List Char × JValue) → List (List Char × JValue)
  | [] => []
  | (k, v) :: fs => (pyReplace k ph rep, substPh ph rep v) :: substPhObj ph rep fs

end

mutual

/-- Running Python's `replace` of an all-caps-placeholder by printable text
over `json.dumps` output substitutes inside every string literal. -/
theorem pyReplace_dumps (ph rep : List Char) (hph : ph ≠ []) (hPh : ∀ c ∈ ph, PhChar c)
    (hrep : ∀ c ∈ rep, PlainChar c) :
    ∀ (v : JValue) (fuel : Nat), jweight v <= fuel →
      pyReplace (dumps v) ph rep = dumps (substPh ph rep v)
  | .jnull, _ => by
    intro _
    rw [show dumps JValue.jnull = "null".toList from rfl,
      pyReplace_nonPh_all ph rep hph hPh _ null_nonPh]
    rfl
  | .jbool true, _ => by
    intro _
    rw [show dumps (JValue.jbool true) = "true".toList from rfl,
      pyReplace_nonPh_all ph rep hph hPh _ true_nonPh]
    rfl
  | .jbool false, _ => by
    intro _
    rw [show dumps (JValue.jbool false) = "false".toList from rfl,
      pyReplace_nonPh_all ph rep hph hPh _ false_nonPh]
    rfl
  | .jint n, _ => by
    intro _
    rw [show dumps (JValue.jint n) = intChars n from rfl,
      pyReplace_nonPh_all ph rep hph hPh _ (intChars_nonPh n)]
    rfl
  | .jstr s, _ => by
    intro _
    rw [show dumps (JValue.jstr s) = ['"'] ++ (escStr s ++ (['"'] ++ [])) by simp [dumps]]
    rw [pyReplace_nonPh_block ph rep hph hPh ['"'] _ (by decide)]
    rw [pyReplace_append_sep ph rep hph hPh ['"'] (by decide) (by decide)
      (escStr s).length (escStr s) [] le_rfl]
    rw [pyReplace_nil, pyReplace_escStr ph rep hph hPh hrep s.length s le_rfl]
    simp [dumps, substPh]
  | .jarr es, fuel => by
    intro hw
    obtain ⟨f, rfl⟩ : ∃ f, fuel = f + 1 :=
      ⟨fuel - 1, by have := jweight_pos (JValue.jarr es); omega⟩
    rw [show dumps (JValue.jarr es) = ['['] ++ (dumpsArr es ++ ([']'] ++ [])) by simp [dumps]]
    rw [pyReplace_nonPh_block ph rep hph hPh ['['] _ (by decide)]
    rw [pyReplace_append_sep ph rep hph hPh [']'] (by decide) (by decide)
      (dumpsArr es).length (dumpsArr es) [] le_rfl]
    rw [pyReplace_nil]
    rw [pyReplace_dumpsArr ph rep hph hPh hrep es f (by
      have h1 : jweight (JValue.jarr es) = 1 + jweightArr es := rfl
      omega)]
    simp [dumps, substPh]
  | .jobj fs, fuel => by
    intro hw
    obtain ⟨f, rfl⟩ : ∃ f, fuel = f + 1 :=
      ⟨fuel - 1, by have := jweight_pos (JValue.jobj fs); omega⟩
    rw [show dumps (JValue.jobj fs) = ['\x7b'] ++ (dumpsObj fs ++ (['\x7d'] ++ [])) by
      simp [dumps]]
    rw [pyReplace_nonPh_block ph rep hph hPh ['\x7b'] _ (by decide)]
    rw [pyReplace_append_sep ph rep hph hPh ['\x7d'] (by decide) (by decide)
      (dumpsObj fs).length (dumpsObj fs) [] le_rfl]
    rw [pyReplace_nil]
    rw [pyReplace_dumpsObj ph rep hph hPh hrep fs f (by
      have h1 : jweight (JValue.jobj fs) = 1 + jweightObj fs := rfl
      omega)]
    simp [dumps, substPh]

/-- Array rendering commutes with the scan. -/
theorem pyReplace_dumpsArr (ph rep : List Char) (hph : ph ≠ []) (hPh : ∀ c ∈ ph, PhChar c)
    (hrep : ∀ c ∈ rep, PlainChar c) :
    ∀ (es : List JValue) (fuel : Nat), jweightArr es <= fuel →
      pyReplace (dumpsArr es) ph rep = dumpsArr (substPhArr ph rep es)
  | [], _ => by
    intro _
    rw [show dumpsArr [] = [] from rfl, pyReplace_nil]
    rfl
  | [e], fuel => by
    intro hw
    simp only [jweightArr] at hw
    obtain ⟨g, rfl⟩ : ∃ g, fuel = g + 1 := ⟨fuel - 1, by omega⟩
    rw [show dumpsArr [e] = dumps e from rfl,
      pyReplace_dumps ph rep hph hPh hrep e g (by omega)]
    rfl
  | e :: e' :: es, fuel => by
    intro hw
    simp only [jweightArr] at hw
    obtain ⟨g, rfl⟩ : ∃ g, fuel = g + 1 := ⟨fuel - 1, by omega⟩
    rw [show dumpsArr (e :: e' :: es) =
        dumps e ++ ([',', ' '] ++ dumpsArr (e' :: es)) by simp [dumpsArr]]
    rw [pyReplace_append_sep ph rep hph hPh [',', ' '] (by decide) (by decide)
      (dumps e).length (dumps e) (dumpsArr (e' :: es)) le_rfl]
    rw [pyReplace_dumps ph rep hph hPh hrep e g (by omega)]
    rw [pyReplace_dumpsArr ph rep hph hPh hrep (e' :: es) g (by
      simp only [jweightArr]
      omega)]
    simp [dumpsArr, substPhArr]

/-- Object rendering commutes with the scan; keys are substituted too. -/
theorem pyReplace_dumpsObj (ph rep : List Char) (hph : ph ≠ []) (hPh : ∀ c ∈ ph, PhChar c)
    (hrep : ∀ c ∈ rep, PlainChar c) :
    ∀ (fs : List (List Char × JValue)) (fuel : Nat), jweightObj fs <= fuel →
      pyReplace (dumpsObj fs) ph rep = dumpsObj (substPhObj ph rep fs)
  | [], _ => by
    intro _
    rw [show dumpsObj [] = [] from rfl, pyReplace_nil]
    rfl
  | [(k, v)], fuel => by
    intro hw
    simp only [jweightObj] at hw
    obtain ⟨g, rfl⟩ : ∃ g, fuel = g + 1 := ⟨fuel - 1, by omega⟩
    rw [show dumpsObj [(k, v)] =
        ['"'] ++ (escStr k ++ (['"', ':', ' '] ++ dumps v)) by simp [dumpsObj]]
    rw [pyReplace_nonPh_block ph rep hph hPh ['"'] _ (by decide)]
    rw [pyReplace_append_sep ph rep hph hPh ['"', ':', ' '] (by decide) (by decide)
      (escStr k).length (escStr k) (dumps v) le_rfl]
    rw [pyReplace_escStr ph rep hph hPh hrep k.length k le_rfl]
    rw [pyReplace_dumps ph rep hph hPh hrep v g (by omega)]
    simp [dumpsObj, substPhObj]
  | (k, v) :: (k', v') :: fs, fuel => by
    intro hw
    simp only [jweightObj] at hw
    obtain ⟨g, rfl⟩ : ∃ g, fuel = g + 1 := ⟨fuel - 1, by omega⟩
    rw [show dumpsObj ((k, v) :: (k', v') :: fs) =
        ['"'] ++ (escStr k ++ (['"', ':', ' '] ++
          (dumps v ++ ([',', ' '] ++ dumpsObj ((k', v') :: fs))))) by simp [dumpsObj]]
    rw [pyReplace_nonPh_block ph rep hph hPh ['"'] _ (by decide)]
    rw [pyReplace_append_sep ph rep hph hPh ['"', ':', ' '] (by decide) (by decide)
      (escStr k).length (escStr k) _ le_rfl]
    rw [pyReplace_append_sep ph rep hph hPh [',', ' '] (by decide) (by decide)
      (dumps v).length (dumps v) (dumpsObj ((k', v') :: fs)) le_rfl]
    rw [pyReplace_escStr ph rep hph hPh hrep k.length k le_rfl]
    rw [pyReplace_dumps ph rep hph hPh hrep v g (by omega)]
    rw [pyReplace_dumpsObj ph rep hph hPh hrep ((k', v') :: fs) g (by
      simp only [jweightObj]
      omega)]
    simp [dumpsObj, substPhObj]

end

/-- The literal placeholder `main.py` ships in its payload templates. -/
def placeholder : List Char := "PLACEHOLDER_TO_BE_REPLACED".toList

theorem placeholder_ne_nil : placeholder ≠ [] := by decide

theorem placeholder_ph : ∀ c ∈ placeholder, PhChar c := by decide


/-- Substituting the placeholder in serialized JSON and parsing back yields the
value with every string literal substituted. -/
theorem loads_pyReplace_dumps (ph rep : List Char) (hph : ph ≠ [])
    (hPh : ∀ c ∈ ph, PhChar c) (hrep : ∀ c ∈ rep, PlainChar c) (v : JValue) :
    loads (pyReplace (dumps v) ph rep) = some (substPh ph rep v) := by
  rw [pyReplace_dumps ph rep hph hPh hrep v (jweight v) le_rfl, loads_dumps]


/-! ### The program model: records, mappers, configuration, fetch loop, join -/

/-- The `attributes` sub-dict of an Atlan entity, each key possibly absent. -/
structure RawAttributes where
  name : Option String
  qualifiedName : Option String
  connectorName : Option String
  category : Option String
deriving DecidableEq

/-- A raw Atlan entity: the `attributes` dict and the top-level metadata
keys, each possibly absent. -/
structure RawEntity where
  attributes : Option RawAttributes
  typeName : Option String
  createdBy : Option String
  updatedBy : Option String
  createTime : Option String
  updateTime : Option String
deriving DecidableEq

/-- What `entity.get('attributes', \x7b\x7d)` yields when the key is missing. -/
def emptyAttributes : RawAttributes := ⟨none, none, none, none⟩

/-- A mapping with neither `attributes` nor any top-level metadata key. -/
def emptyEntity : RawEntity := ⟨none, none, none, none, none, none⟩

/-- A connection record as `get_connections` builds it. -/
structure ConnectionRec where
  connection_name : String
  connection_qualified_name : String
  connector_name : String
  category : String
  updated_by : String
  created_by : String
  create_time : String
  update_time : String
deriving DecidableEq

/-- A database record as `get_databases` builds it. -/
structure DatabaseRec where
  connection_qualified_name : String
  type_name : String
  qualified_name : String
  name : String
  created_by : String
  updated_by : String
  create_time : String
  update_time : String
deriving DecidableEq

/-- The per-entity extraction of `get_connections` (main.py lines 263-275):
every field is read with `.get(..., eps)` for the empty-string default. -/
def connFromEntity (e : RawEntity) : ConnectionRec :=
  let a := e.attributes.getD emptyAttributes
  { connection_name := a.name.getD ""
    connection_qualified_name := a.qualifiedName.getD ""
    connector_name := a.connectorName.getD ""
    category := a.category.getD ""
    updated_by := e.updatedBy.getD ""
    created_by := e.createdBy.getD ""
    create_time := e.createTime.getD ""
    update_time := e.updateTime.getD "" }

/-- The per-entity extraction of `get_databases` (main.py lines 344-354). -/
def dbFromEntity (connection_qualified_name : String) (e : RawEntity) : DatabaseRec :=
  let a := e.attributes.getD emptyAttributes
  { connection_qualified_name := connection_qualified_name
    type_name := e.typeName.getD ""
    qualified_name := a.qualifiedName.getD ""
    name := a.name.getD ""
    created_by := e.createdBy.getD ""
    updated_by := e.updatedBy.getD ""
    create_time := e.createTime.getD ""
    update_time := e.updateTime.getD "" }

/-- An API response; `entities` is read with `response.get('entities', [])`. -/
structure ApiResponse where
  entities : Option (List RawEntity)

/-- `get_connections` (main.py lines 246-284): a falsy transport response
yields `[]`, otherwise each entity is mapped. -/
def get_connections (response : Option ApiResponse) : List ConnectionRec :=
  match response with
  | none => []
  | some r => (r.entities.getD []).map connFromEntity

/-- One configuration entry: an endpoint and its payload template. -/
structure ApiConfig where
  url : String
  payload : JValue

/-- Python dict lookup over an association list in insertion order. -/
def lookupStr {α : Type} (m : List (String × α)) (k : String) : Option α :=
  match m with
  | [] => none
  | (k', v) :: rest => if k' = k then some v else lookupStr rest k

/-- The slice of the configuration that `get_databases` reads:
`config["databases_api_map"]` and the named API entries. -/
structure Config where
  databases_api_map : List (String × String)
  apis : List (String × ApiConfig)

/-- An uncaught Python exception. -/
inductive PyError where
  | keyError : String → PyError
deriving DecidableEq

/-- `get_databases` (main.py lines 287-363).
`config[config["databases_api_map"][connector_name]]` raises `KeyError` when a
key is absent.  The templating step serializes the payload template, textually
replaces the placeholder with `connection_qualified_name` and re-parses,
returning `[]` when re-parsing fails (`json.JSONDecodeError` is caught); a
falsy transport response also yields `[]`; otherwise each returned entity is
mapped.  `transport` stands for `make_api_request`. -/
def get_databases (config : Config) (transport : String → JValue → Option ApiResponse)
    (connection_qualified_name connector_name : String) :
    Except PyError (List DatabaseRec) :=
  match lookupStr config.databases_api_map connector_name with
  | none => Except.error (PyError.keyError connector_name)
  | some apiName =>
    match lookupStr config.apis apiName with
    | none => Except.error (PyError.keyError apiName)
    | some api =>
      match loads (pyReplace (dumps api.payload) placeholder
          connection_qualified_name.toList) with
      | none => Except.ok []
      | some payload =>
        match transport api.url payload with
        | none => Except.ok []
        | some r =>
          Except.ok ((r.entities.getD []).map (dbFromEntity connection_qualified_name))

/-- Step 4 of `main` (main.py lines 568-580): each connection with a truthy
qualified name gets its databases fetched and the results extended onto the
accumulator; an uncaught exception aborts the loop. -/
def fetchAllDatabases (config : Config) (transport : String → JValue → Option ApiResponse) :
    List ConnectionRec → Except PyError (List DatabaseRec)
  | [] => Except.ok []
  | c :: cs =>
    if c.connection_qualified_name = "" then fetchAllDatabases config transport cs
    else
      match get_databases config transport c.connection_qualified_name c.connector_name with
      | Except.error e => Except.error e
      | Except.ok dbs =>
        match fetchAllDatabases config transport cs with
        | Except.error e => Except.error e
        | Except.ok rest => Except.ok (dbs ++ rest)

/-- The databases CSV header (main.py lines 436-439), in the source's order. -/
def databasesCsvFieldnames : List String :=
  ["type_name", "qualified_name", "name", "created_by", "updated_by",
   "create_time", "update_time", "connection_qualified_name"]

/-- `row[field]` as `csv.DictWriter` reads a database record. -/
def dbField (d : DatabaseRec) (f : String) : String :=
  if f = "connection_qualified_name" then d.connection_qualified_name
  else if f = "type_name" then d.type_name
  else if f = "qualified_name" then d.qualified_name
  else if f = "name" then d.name
  else if f = "created_by" then d.created_by
  else if f = "updated_by" then d.updated_by
  else if f = "create_time" then d.create_time
  else if f = "update_time" then d.update_time
  else ""

/-- One CSV data line of the databases file: the fields in header order. -/
def databaseCsvRow (d : DatabaseRec) : List String :=
  databasesCsvFieldnames.map (dbField d)

/-- A row of the combined file. -/
structure CombinedRow where
  connector_name : String
  connection_name : String
  category : String
  type_name : String
  name : String
deriving DecidableEq

/-- One joined row (main.py lines 505-512): connection fields from the
connection, database fields from the database. -/
def combinedRowOf (c : ConnectionRec) (d : DatabaseRec) : CombinedRow :=
  { connector_name := c.connector_name
    connection_name := c.connection_name
    category := c.category
    type_name := d.type_name
    name := d.name }

/-- The left-join blank row (main.py lines 515-521). -/
def blankRowOf (c : ConnectionRec) : CombinedRow :=
  { connector_name := c.connector_name
    connection_name := c.connection_name
    category := c.category
    type_name := ""
    name := "" }

/-- `databases_by_connection.get(k, [])`. -/
def dictGetD (m : List (String × List DatabaseRec)) (k : String) : List DatabaseRec :=
  match m with
  | [] => []
  | (k', l) :: rest => if k' = k then l else dictGetD rest k

/-- The dict-building loop body (main.py lines 486-490): append `db` under
key `k`, creating the entry at the end in insertion order. -/
def dictInsert (m : List (String × List DatabaseRec)) (k : String) (db : DatabaseRec) :
    List (String × List DatabaseRec) :=
  match m with
  | [] => [(k, [db])]
  | (k', l) :: rest =>
    if k' = k then (k', l ++ [db]) :: rest else (k', l) :: dictInsert rest k db

/-- The lookup dict built from the databases list (main.py lines 485-490). -/
def buildDbDict (databases : List DatabaseRec) : List (String × List DatabaseRec) :=
  databases.foldl (fun m db => dictInsert m db.connection_qualified_name db) []

/-- The rows one connection contributes (main.py lines 498-522): one per
matching database when any match, else a single blank row. -/
def rowsForConnection (dict : List (String × List DatabaseRec)) (c : ConnectionRec) :
    List CombinedRow :=
  let ds := dictGetD dict c.connection_qualified_name
  if ds.isEmpty then [blankRowOf c] else ds.map (combinedRowOf c)

/-- The combined rows `create_combined_csv` writes (main.py lines 484-522);
the enclosing function returns without writing a file when `connections` is
empty, which likewise produces no rows. -/
def create_combined_csv (connections : List ConnectionRec) (databases : List DatabaseRec) :
    List CombinedRow :=
  (connections.map (rowsForConnection (buildDbDict databases))).flatten

/-- The database records whose key equals `k`, in input order. -/
def matchingDbs (databases : List DatabaseRec) (k : String) : List DatabaseRec :=
  databases.filter (fun d => d.connection_qualified_name == k)

/-- How many database records match a connection's qualified name. -/
def countMatching (databases : List DatabaseRec) (c : ConnectionRec) : Nat :=
  (matchingDbs databases c.connection_qualified_name).length


theorem dictGetD_insert (m : List (String × List DatabaseRec)) (k0 : String)
    (db : DatabaseRec) (k : String) :
    dictGetD (dictInsert m k0 db) k =
      dictGetD m k ++ (if k0 = k then [db] else []) := by
  induction m with
  | nil => by_cases h : k0 = k <;> simp [dictInsert, dictGetD, h]
  | cons p rest ih =>
    obtain ⟨k', l⟩ := p
    by_cases h1 : k' = k0
    · subst h1
      rw [dictInsert, if_pos rfl]
      by_cases h2 : k' = k
      · subst h2
        simp [dictGetD]
      · simp [dictGetD, h2]
    · rw [dictInsert, if_neg h1]
      by_cases h2 : k' = k
      · subst h2
        rw [dictGetD, if_pos rfl, dictGetD, if_pos rfl,
          if_neg (fun h => h1 h.symm)]
        simp
      · rw [dictGetD, if_neg h2, dictGetD, if_neg h2, ih]

theorem dictGetD_foldl :
    ∀ (dbs : List DatabaseRec) (m : List (String × List DatabaseRec)) (k : String),
      dictGetD (dbs.foldl (fun acc db => dictInsert acc db.connection_qualified_name db) m) k
        = dictGetD m k ++ matchingDbs dbs k := by
  intro dbs
  induction dbs with
  | nil => intro m k; simp [matchingDbs]
  | cons db rest ih =>
    intro m k
    rw [List.foldl_cons, ih, dictGetD_insert]
    by_cases h : db.connection_qualified_name = k
    · simp [matchingDbs, List.filter_cons, h]
    · simp [matchingDbs, List.filter_cons, h]

/-- The dict lookup agrees with a filter of the databases list. -/
theorem dictGetD_buildDbDict (dbs : List DatabaseRec) (k : String) :
    dictGetD (buildDbDict dbs) k = matchingDbs dbs k := by
  rw [buildDbDict, dictGetD_foldl]
  rfl

theorem rowsForConnection_eq (ds : List DatabaseRec) (c : ConnectionRec) :
    rowsForConnection (buildDbDict ds) c =
      if (matchingDbs ds c.connection_qualified_name).isEmpty then [blankRowOf c]
      else (matchingDbs ds c.connection_qualified_name).map (combinedRowOf c) := by
  simp only [rowsForConnection, dictGetD_buildDbDict]

theorem length_rowsForConnection (ds : List DatabaseRec) (c : ConnectionRec) :
    (rowsForConnection (buildDbDict ds) c).length = max 1 (countMatching ds c) := by
  rw [rowsForConnection_eq, countMatching]
  by_cases h : (matchingDbs ds c.connection_qualified_name).isEmpty
  · rw [if_pos h]
    rw [List.isEmpty_iff] at h
    rw [h]
    rfl
  · rw [if_neg h, List.length_map]
    have : (matchingDbs ds c.connection_qualified_name).length ≠ 0 := by
      intro h0
      rw [List.length_eq_zero] at h0
      rw [h0] at h
      exact h rfl
    omega

theorem combined_length (cs : List ConnectionRec) (ds : List DatabaseRec) :
    (create_combined_csv cs ds).length =
      (cs.map (fun c => max 1 (countMatching ds c))).sum := by
  rw [create_combined_csv, List.length_flatten, List.map_map]
  exact congrArg List.sum (List.map_congr_left (fun c _ => length_rowsForConnection ds c))

theorem le_sum_max_one (cs : List ConnectionRec) (n : ConnectionRec → Nat) :
    cs.length <= (cs.map (fun c => max 1 (n c))).sum := by
  induction cs with
  | nil => simp
  | cons c rest ih =>
    simp only [List.map_cons, List.sum_cons, List.length_cons]
    omega

theorem sum_max_one_eq_iff (cs : List ConnectionRec) (n : ConnectionRec → Nat) :
    (cs.map (fun c => max 1 (n c))).sum = cs.length ↔ ∀ c ∈ cs, n c <= 1 := by
  induction cs with
  | nil => simp
  | cons c rest ih =>
    simp only [List.map_cons, List.sum_cons, List.length_cons, List.mem_cons]
    constructor
    · intro h
      have hle := le_sum_max_one rest n
      have h1 : max 1 (n c) = 1 ∧ (rest.map (fun x => max 1 (n x))).sum = rest.length := by
        omega
      intro x hx
      rcases hx with rfl | hx
      · omega
      · exact ih.1 h1.2 x hx
    · intro h
      have h1 : max 1 (n c) = 1 := by have := h c (Or.inl rfl); omega
      have h2 := ih.2 (fun x hx => h x (Or.inr hx))
      omega

theorem mem_create_combined (cs : List ConnectionRec) (ds : List DatabaseRec)
    (row : CombinedRow) :
    row ∈ create_combined_csv cs ds ↔
      ∃ c ∈ cs, row ∈ rowsForConnection (buildDbDict ds) c := by
  rw [create_combined_csv, List.mem_flatten]
  constructor
  · rintro ⟨l, hl, hrow⟩
    obtain ⟨c, hc, rfl⟩ := List.mem_map.1 hl
    exact ⟨c, hc, hrow⟩
  · rintro ⟨c, hc, hrow⟩
    exact ⟨_, List.mem_map.2 ⟨c, hc, rfl⟩, hrow⟩

theorem rowsForConnection_fields (dict : List (String × List DatabaseRec))
    (c : ConnectionRec) (row : CombinedRow) (h : row ∈ rowsForConnection dict c) :
    row.connector_name = c.connector_name ∧ row.connection_name = c.connection_name ∧
      row.category = c.category := by
  simp only [rowsForConnection] at h
  split at h
  · rw [List.mem_singleton] at h
    subst h
    exact ⟨rfl, rfl, rfl⟩
  · obtain ⟨d, _, rfl⟩ := List.mem_map.1 h
    exact ⟨rfl, rfl, rfl⟩

theorem rowsForConnection_ne_nil (dict : List (String × List DatabaseRec))
    (c : ConnectionRec) : rowsForConnection dict c ≠ [] := by
  simp only [rowsForConnection]
  split
  · simp
  · rename_i h
    intro hmap
    rw [List.map_eq_nil_iff] at hmap
    rw [hmap] at h
    exact h rfl

theorem matchingDbs_filter (q : DatabaseRec → Bool) (ds : List DatabaseRec) (k : String)
    (hq : ∀ d, d.connection_qualified_name = k → q d = true) :
    matchingDbs (ds.filter q) k = matchingDbs ds k := by
  simp only [matchingDbs]
  rw [List.filter_filter]
  apply List.filter_congr
  intro d _
  by_cases h : d.connection_qualified_name = k
  · simp [h, hq d h]
  · simp [h]


/-! ### Sample data for concrete instances -/

/-- The payload-template API entry the repository's tests configure. -/
def sampleApi : ApiConfig :=
  { url := "https://tenant.atlan.com/api/meta/search/indexsearch"
    payload := JValue.jobj [("query".toList, JValue.jstr placeholder)] }

/-- A configuration with the one connector mapping the repository ships. -/
def sampleConfig : Config :=
  { databases_api_map := [("databricks", "databases_api")]
    apis := [("databases_api", sampleApi)] }

def sampleConnection : ConnectionRec :=
  { connection_name := "dev"
    connection_qualified_name := "default/databricks/1"
    connector_name := "databricks"
    category := "lake"
    updated_by := "admin"
    created_by := "admin"
    create_time := "1700000000"
    update_time := "1700000001" }

def sampleConnection2 : ConnectionRec :=
  { sampleConnection with connection_qualified_name := "default/databricks/2" }

def sampleDb : DatabaseRec :=
  { connection_qualified_name := "default/databricks/1"
    type_name := "Database"
    qualified_name := "default/databricks/1/db1"
    name := "db1"
    created_by := "admin"
    updated_by := "admin"
    create_time := "1700000000"
    update_time := "1700000001" }

def c7connA : ConnectionRec :=
  { sampleConnection with connector_name := "snowflake", category := "Lake" }

def c7connB : ConnectionRec :=
  { sampleConnection with connector_name := "snowflake", category := "Warehouse" }

/-! ### The claims -/

/-- Claim C1: connection-level failure isolation.  When the configuration
lookups succeed and the fetch for connection `c` fails softly — templating
re-parse failure, falsy transport response, or an empty entity list — then
`get_databases` yields `[]` for that connection, and the per-connection loop
over any surrounding connections produces exactly what it produces with `c`
removed: the failure affects that connection only and never prevents
collection for subsequent connections. -/
theorem claim_C1 (config : Config) (transport : String → JValue → Option ApiResponse)
    (c : ConnectionRec) (apiName : String) (api : ApiConfig)
    (h1 : lookupStr config.databases_api_map c.connector_name = some apiName)
    (h2 : lookupStr config.apis apiName = some api)
    (hfail :
      loads (pyReplace (dumps api.payload) placeholder c.connection_qualified_name.toList)
          = none ∨
        (∃ p, loads (pyReplace (dumps api.payload) placeholder
            c.connection_qualified_name.toList) = some p ∧ transport api.url p = none) ∨
        (∃ p r, loads (pyReplace (dumps api.payload) placeholder
            c.connection_qualified_name.toList) = some p ∧ transport api.url p = some r ∧
          r.entities.getD [] = [])) :
    get_databases config transport c.connection_qualified_name c.connector_name
        = Except.ok [] ∧
      ∀ pre post, fetchAllDatabases config transport (pre ++ c :: post) =
        fetchAllDatabases config transport (pre ++ post) := by
  have hget : get_databases config transport c.connection_qualified_name c.connector_name
      = Except.ok [] := by
    simp only [get_databases, h1, h2]
    rcases hfail with h | ⟨p, hp, ht⟩ | ⟨p, r, hp, ht, he⟩
    · simp only [h]
    · simp only [hp, ht]
    · simp only [hp, ht, he, List.map_nil]
  refine ⟨hget, ?_⟩
  intro pre post
  induction pre with
  | nil =>
    simp only [List.nil_append]
    rw [fetchAllDatabases]
    by_cases hq : c.connection_qualified_name = ""
    · rw [if_pos hq]
    · rw [if_neg hq, hget]
      cases hrest : fetchAllDatabases config transport post <;> simp [hrest]
  | cons a pre ih =>
    simp only [List.cons_append]
    rw [fetchAllDatabases]
    conv_rhs => rw [fetchAllDatabases]
    rw [ih]

/-- Witness for C1 at a concrete configuration and a transport that always
fails. -/
theorem claim_C1_witness :
    get_databases sampleConfig (fun _ _ => none) "default/databricks/1" "databricks"
        = Except.ok [] ∧
      fetchAllDatabases sampleConfig (fun _ _ => none)
          ([sampleConnection2] ++ sampleConnection :: [sampleConnection2]) =
        fetchAllDatabases sampleConfig (fun _ _ => none)
          ([sampleConnection2] ++ [sampleConnection2]) :=
  have h := claim_C1 sampleConfig (fun _ _ => none) sampleConnection "databases_api"
    sampleApi rfl rfl (Or.inr (Or.inl ⟨JValue.jobj [("query".toList,
      JValue.jstr "default/databricks/1".toList)], by rfl, rfl⟩))
  ⟨h.1, h.2 [sampleConnection2] [sampleConnection2]⟩

/-- Counterexample to C2: with the shipped mapping (only `databricks`), a
connector absent from `databases_api_map` makes `get_databases` raise
`KeyError` — there is no fallback to a default template. -/
theorem claim_C2_counterexample :
    get_databases sampleConfig (fun _ _ => none) "default/unknown/1" "unknown"
      = Except.error (PyError.keyError "unknown") := rfl

/-- Claim C2, amended: for every connection whose connector name is absent
from `databases_api_map`, `get_databases` hard-fails with `KeyError` on that
connector name (the subscript at main.py line 310 has no `.get` default), the
opposite of the claimed fallback. -/
theorem claim_C2 (config : Config) (transport : String → JValue → Option ApiResponse)
    (cqn connector : String)
    (h : lookupStr config.databases_api_map connector = none) :
    get_databases config transport cqn connector
      = Except.error (PyError.keyError connector) := by
  rw [get_databases, h]

/-- Witness for C2 at a connector the shipped mapping lacks. -/
theorem claim_C2_witness :
    lookupStr sampleConfig.databases_api_map "mysql" = none ∧
      get_databases sampleConfig (fun _ _ => none) "default/mysql/1" "mysql"
        = Except.error (PyError.keyError "mysql") :=
  ⟨rfl, claim_C2 sampleConfig (fun _ _ => none) "default/mysql/1" "mysql" rfl⟩

/-- Counterexample to C3: the identifier is spliced into the serialized JSON
unescaped, so an identifier containing a double quote makes re-parsing fail
(`get_databases` then returns `[]`), refuting "for every non-empty
identifier string ... re-parsing succeeds". -/
theorem claim_C3_counterexample :
    loads (pyReplace (dumps (JValue.jobj [("query".toList, JValue.jstr placeholder)]))
      placeholder ['"']) = none := by rfl

/-- Claim C3, amended: for identifiers of printable ASCII free of quote and
backslash (every Atlan qualified name is of this shape), serializing,
substituting the placeholder and re-parsing succeeds and yields the template
with the substitution applied inside every string literal (`substPh`); when
the placeholder occurs exactly once, that is precisely the placeholder leaf
replaced by the identifier. -/
theorem claim_C3 (tmpl : JValue) (ident : List Char) (hne : ident ≠ [])
    (hplain : ∀ c ∈ ident, PlainChar c) :
    loads (pyReplace (dumps tmpl) placeholder ident)
      = some (substPh placeholder ident tmpl) :=
  loads_pyReplace_dumps placeholder ident placeholder_ne_nil placeholder_ph hplain tmpl

/-- Witness for C3 at the shipped payload template and a realistic qualified
name. -/
theorem claim_C3_witness :
    "default/databricks/1".toList ≠ [] ∧
      (∀ c ∈ "default/databricks/1".toList, PlainChar c) ∧
      loads (pyReplace (dumps (JValue.jobj [("query".toList, JValue.jstr placeholder)]))
          placeholder "default/databricks/1".toList)
        = some (JValue.jobj [("query".toList,
            JValue.jstr "default/databricks/1".toList)]) := by
  refine ⟨by decide, by decide, ?_⟩
  rw [claim_C3 (JValue.jobj [("query".toList, JValue.jstr placeholder)])
    "default/databricks/1".toList (by decide) (by decide)]
  rfl

/-- Counterexample to C4: the databases header starts with `type_name` and
ends with `connection_qualified_name`, not the claimed order with
`connection_qualified_name` first. -/
theorem claim_C4_counterexample :
    databasesCsvFieldnames.head? = some "type_name" ∧
      databasesCsvFieldnames.getLast? = some "connection_qualified_name" := ⟨rfl, rfl⟩

/-- Claim C4, amended: the databases file's columns are, in this exact order,
`type_name, qualified_name, name, created_by, updated_by, create_time,
update_time, connection_qualified_name` (main.py lines 436-439), and every
data row lists the record's fields in that same order. -/
theorem claim_C4 :
    databasesCsvFieldnames =
      ["type_name", "qualified_name", "name", "created_by", "updated_by",
       "create_time", "update_time", "connection_qualified_name"] ∧
      ∀ d : DatabaseRec, databaseCsvRow d =
        [d.type_name, d.qualified_name, d.name, d.created_by, d.updated_by,
         d.create_time, d.update_time, d.connection_qualified_name] :=
  ⟨rfl, fun _ => rfl⟩

/-- Claim C5: join totality — the combined output has exactly
`sum over c of max 1 (matches of c)` rows. -/
theorem claim_C5 (connections : List ConnectionRec) (databases : List DatabaseRec) :
    (create_combined_csv connections databases).length =
      (connections.map (fun c => max 1 (countMatching databases c))).sum :=
  combined_length connections databases

/-- Counterexample to C6's equality condition: one connection with exactly one
matching database gives output length equal to the number of connections even
though a match exists, refuting "equality exactly when no connection has any
matching database". -/
theorem claim_C6_counterexample :
    (create_combined_csv [sampleConnection] [sampleDb]).length
        = [sampleConnection].length ∧
      countMatching [sampleDb] sampleConnection = 1 := ⟨rfl, rfl⟩

/-- Claim C6, amended: every connection contributes at least one row (a
matchless connection contributes exactly the blank row), so the output is at
least as long as the connection list; but equality holds exactly when every
connection has at most one matching database, not only when none has any. -/
theorem claim_C6 (cs : List ConnectionRec) (ds : List DatabaseRec) :
    cs.length <= (create_combined_csv cs ds).length ∧
      (∀ c ∈ cs, countMatching ds c = 0 →
        rowsForConnection (buildDbDict ds) c = [blankRowOf c]) ∧
      (∀ c ∈ cs, ∃ row ∈ create_combined_csv cs ds,
        row.connector_name = c.connector_name ∧
          row.connection_name = c.connection_name ∧ row.category = c.category) ∧
      ((create_combined_csv cs ds).length = cs.length ↔
        ∀ c ∈ cs, countMatching ds c <= 1) := by
  refine ⟨?_, ?_, ?_, ?_⟩
  · rw [combined_length]
    exact le_sum_max_one cs _
  · intro c _ h0
    rw [rowsForConnection_eq]
    rw [countMatching, List.length_eq_zero] at h0
    rw [h0]
    rfl
  · intro c hc
    obtain ⟨row, hrow⟩ :=
      List.exists_mem_of_ne_nil _ (rowsForConnection_ne_nil (buildDbDict ds) c)
    have hf := rowsForConnection_fields _ c row hrow
    exact ⟨row, (mem_create_combined cs ds row).2 ⟨c, hc, hrow⟩, hf.1, hf.2.1, hf.2.2⟩
  · rw [combined_length]
    exact sum_max_one_eq_iff cs _

/-- Counterexample to C7: two connections with the same connector name but
different upstream categories produce combined rows with different categories,
so `category` is not derived from `connector_name` by any static table — it is
copied from the upstream connection record. -/
theorem claim_C7_counterexample :
    (create_combined_csv [c7connA] []).map (fun r => (r.connector_name, r.category))
        = [("snowflake", "Lake")] ∧
      (create_combined_csv [c7connB] []).map (fun r => (r.connector_name, r.category))
        = [("snowflake", "Warehouse")] := ⟨rfl, rfl⟩

/-- Claim C7, amended: every combined row's `category` (and `connector_name`)
is copied verbatim from the connection record that produced the row, i.e.
drawn from upstream data, not from a static connector→category table. -/
theorem claim_C7 (cs : List ConnectionRec) (ds : List DatabaseRec) (row : CombinedRow)
    (h : row ∈ create_combined_csv cs ds) :
    ∃ c ∈ cs, row.category = c.category ∧ row.connector_name = c.connector_name := by
  obtain ⟨c, hc, hrow⟩ := (mem_create_combined cs ds row).1 h
  have hf := rowsForConnection_fields _ c row hrow
  exact ⟨c, hc, hf.2.2, hf.1⟩

/-- Witness for C7 at a one-connection run. -/
theorem claim_C7_witness :
    blankRowOf c7connA ∈ create_combined_csv [c7connA] [] ∧
      ∃ c ∈ [c7connA], (blankRowOf c7connA).category = c.category ∧
        (blankRowOf c7connA).connector_name = c.connector_name :=
  have hmem : blankRowOf c7connA ∈ create_combined_csv [c7connA] [] := by decide
  ⟨hmem, claim_C7 [c7connA] [] (blankRowOf c7connA) hmem⟩

/-- Claim C8: mapping defaulting.  The fully-empty entity maps to the
all-empty-string record under both mappers, and the absence of any individual
key — `attributes` as a whole, any attribute key, or any top-level metadata
key — yields the empty-string default for exactly the fields read from it.
Both mappers are total functions, so no input raises. -/
theorem claim_C8 :
    (connFromEntity emptyEntity = ⟨"", "", "", "", "", "", "", ""⟩) ∧
      (∀ cqn, dbFromEntity cqn emptyEntity = ⟨cqn, "", "", "", "", "", "", ""⟩) ∧
      (∀ e, e.attributes = none →
        (connFromEntity e).connection_name = "" ∧
          (connFromEntity e).connection_qualified_name = "" ∧
          (connFromEntity e).connector_name = "" ∧ (connFromEntity e).category = "") ∧
      (∀ e cqn, e.attributes = none →
        (dbFromEntity cqn e).qualified_name = "" ∧ (dbFromEntity cqn e).name = "") ∧
      (∀ e cqn, e.typeName = none → (dbFromEntity cqn e).type_name = "") ∧
      (∀ e, e.createdBy = none →
        (connFromEntity e).created_by = "" ∧
          ∀ cqn, (dbFromEntity cqn e).created_by = "") ∧
      (∀ e, e.updatedBy = none →
        (connFromEntity e).updated_by = "" ∧
          ∀ cqn, (dbFromEntity cqn e).updated_by = "") ∧
      (∀ e, e.createTime = none →
        (connFromEntity e).create_time = "" ∧
          ∀ cqn, (dbFromEntity cqn e).create_time = "") ∧
      (∀ e, e.updateTime = none →
        (connFromEntity e).update_time = "" ∧
          ∀ cqn, (dbFromEntity cqn e).update_time = "") ∧
      (∀ e a, e.attributes = some a → a.name = none →
        (connFromEntity e).connection_name = "" ∧
          ∀ cqn, (dbFromEntity cqn e).name = "") ∧
      (∀ e a, e.attributes = some a → a.qualifiedName = none →
        (connFromEntity e).connection_qualified_name = "" ∧
          ∀ cqn, (dbFromEntity cqn e).qualified_name = "") ∧
      (∀ e a, e.attributes = some a → a.connectorName = none →
        (connFromEntity e).connector_name = "") ∧
      (∀ e a, e.attributes = some a → a.category = none →
        (connFromEntity e).category = "") := by
  refine ⟨rfl, fun _ => rfl, ?_, ?_, ?_, ?_, ?_, ?_, ?_, ?_, ?_, ?_, ?_⟩
  · intro e h
    simp [connFromEntity, h, emptyAttributes]
  · intro e cqn h
    simp [dbFromEntity, h, emptyAttributes]
  · intro e cqn h
    simp [dbFromEntity, h]
  · intro e h
    exact ⟨by simp [connFromEntity, h], fun cqn => by simp [dbFromEntity, h]⟩
  · intro e h
    exact ⟨by simp [connFromEntity, h], fun cqn => by simp [dbFromEntity, h]⟩
  · intro e h
    exact ⟨by simp [connFromEntity, h], fun cqn => by simp [dbFromEntity, h]⟩
  · intro e h
    exact ⟨by simp [connFromEntity, h], fun cqn => by simp [dbFromEntity, h]⟩
  · intro e a he ha
    exact ⟨by simp [connFromEntity, he, ha], fun cqn => by simp [dbFromEntity, he, ha]⟩
  · intro e a he ha
    exact ⟨by simp [connFromEntity, he, ha], fun cqn => by simp [dbFromEntity, he, ha]⟩
  · intro e a he ha
    simp [connFromEntity, he, ha]
  · intro e a he ha
    simp [connFromEntity, he, ha]

/-- Claim C9: strict left join — every combined row arises from some input
connection, and dropping the orphan database records (those matching no
connection) leaves the output unchanged: orphans contribute nothing and no
right-outer rows exist. -/
theorem claim_C9 (cs : List ConnectionRec) (ds : List DatabaseRec) :
    (∀ row ∈ create_combined_csv cs ds, ∃ c ∈ cs,
      row ∈ rowsForConnection (buildDbDict ds) c) ∧
      create_combined_csv cs
          (ds.filter (fun d => cs.any
            (fun c => c.connection_qualified_name == d.connection_qualified_name)))
        = create_combined_csv cs ds := by
  constructor
  · intro row h
    exact (mem_create_combined cs ds row).1 h
  · rw [create_combined_csv, create_combined_csv]
    congr 1
    apply List.map_congr_left
    intro c hc
    have hm := matchingDbs_filter
      (fun d => cs.any (fun x => x.connection_qualified_name == d.connection_qualified_name))
      ds c.connection_qualified_name
      (fun d hd => by
        rw [List.any_eq_true]
        exact ⟨c, hc, by rw [hd]; simp⟩)
    rw [rowsForConnection_eq, rowsForConnection_eq, hm]

/-- Claim C10: the substitution step replaces every occurrence of the
placeholder in the serialized template: the result is the fragments between
occurrences joined by the identifier, and no fragment retains an occurrence. -/
theorem claim_C10 (tmpl : JValue) (ident : List Char) :
    pyReplace (dumps tmpl) placeholder ident
        = joinWith ident (pySplit (dumps tmpl) placeholder) ∧
      ∀ g ∈ pySplit (dumps tmpl) placeholder, hasOcc placeholder g = false :=
  pyReplace_all_occurrences (dumps tmpl) placeholder ident placeholder_ne_nil

end Atlan
